import Mathlib

/-!
Verification of the `ssmconfig` Go package (`ssmconfig.go`): a configuration
loader that walks a struct via reflection, collects fields tagged `ssmparam`,
fetches the parameters from AWS SSM in one batched `GetParameters` call, and
decodes the returned string values into the struct fields in place.

The embedding models Go `reflect` types and values as inductive types,
the field walker and `Process` as explicit state-passing functions, and the
`strconv` / `time` parsing functions used by `processField` as executable
Lean functions over `Nat` / `Int` / `Rat`.
-/

set_option maxRecDepth 10000

/-- Go types, by `reflect.Kind`, restricted to the kinds `ssmconfig`
distinguishes.  `tint bits` covers `int, int8..int64` (`bits` is
`typ.Bits()`), `tduration` is `time.Duration` (kind `Int64`, package
`time`, name `Duration`), `tuint bits` covers `uint, uint8..uint64`,
`tfloat bits` covers `float32/float64`.  `tother` stands for every kind
`processField` has no case for other than `Array` and `Struct`
(pointers, channels, functions, interfaces, ...). -/
inductive GoType where
  | tstring : GoType
  | tbool : GoType
  | tint : Nat → GoType
  | tduration : GoType
  | tuint : Nat → GoType
  | tfloat : Nat → GoType
  | tslice : GoType → GoType
  | tarray : Nat → GoType → GoType
  | tmap : GoType → GoType → GoType
  | tstruct : GoType
  | tother : GoType
deriving DecidableEq, Repr

mutual
/-- Go values of the kinds above.  A slice value is `vslice elemType elems`
where `elems = none` models a nil slice and `some l` a non-nil slice with
elements `l`.  A map value carries its key and element types and its
entries as an insertion-ordered association list (Go maps are unordered;
the list order is a determinization of it).  A struct value is the list
of its fields. -/
inductive GoValue where
  | vstring : String → GoValue
  | vbool : Bool → GoValue
  | vint : Nat → Int → GoValue
  | vduration : Int → GoValue
  | vuint : Nat → Nat → GoValue
  | vfloat : Nat → Rat → GoValue
  | vslice : GoType → Option (List GoValue) → GoValue
  | varray : GoType → List GoValue → GoValue
  | vmap : GoType → GoType → List (GoValue × GoValue) → GoValue
  | vstruct : List GoField → GoValue
  | vother : GoValue
deriving Repr

/-- A Go struct field as seen through `reflect`: its `ssmparam` tag value
(`""` when the tag is absent, as `Tag.Get` returns), whether
`reflect.Value.CanSet` holds for it (false for unexported fields), and its
current value. -/
inductive GoField where
  | mk : String → Bool → GoValue → GoField
deriving Repr
end

/-- The `ssmparam` tag of a field (`q.fieldType.Tag.Get("ssmparam")`). -/
def GoField.tag : GoField → String
  | .mk t _ _ => t

/-- Whether the field is settable (`q.field.CanSet()`). -/
def GoField.canSet : GoField → Bool
  | .mk _ c _ => c

/-- The field's current value (`q.field`). -/
def GoField.value : GoField → GoValue
  | .mk _ _ v => v

/-- `reflect`'s type of a value (`field.Type()`), read off the value. -/
def GoValue.typeOf : GoValue → GoType
  | .vstring _ => .tstring
  | .vbool _ => .tbool
  | .vint b _ => .tint b
  | .vduration _ => .tduration
  | .vuint b _ => .tuint b
  | .vfloat b _ => .tfloat b
  | .vslice t _ => .tslice t
  | .varray t l => .tarray l.length t
  | .vmap k v _ => .tmap k v
  | .vstruct _ => .tstruct
  | .vother => .tother

/-- The zero `GoValue` of a type (`reflect.New(typ).Elem()`): empty string,
0, false, nil slice, empty map.  (For `tstruct`/`tother`, which the decoder
never constructs, a degenerate zero is used.) -/
def goZero : GoType → GoValue
  | .tstring => .vstring ""
  | .tbool => .vbool false
  | .tint b => .vint b 0
  | .tduration => .vduration 0
  | .tuint b => .vuint b 0
  | .tfloat b => .vfloat b 0
  | .tslice t => .vslice t none
  | .tarray n t => .varray t (List.replicate n (goZero t))
  | .tmap k v => .vmap k v []
  | .tstruct => .vstruct []
  | .tother => .vother

/-! ### String helpers modelling the Go standard library -/

/-- `strings.Split(s, sep)` for a one-character separator, on character
lists.  Never returns an empty list; splitting the empty string yields
`[[]]` as in Go. -/
def splitChars (sep : Char) : List Char → List (List Char)
  | [] => [[]]
  | c :: cs =>
    if c = sep then [] :: splitChars sep cs
    else
      match splitChars sep cs with
      | [] => [[c]]
      | t :: ts => (c :: t) :: ts

/-- `strings.Split(s, sep)` for a one-character separator `sep`. -/
def goSplit (s : String) (sep : Char) : List String :=
  (splitChars sep s.toList).map String.mk

/-- `unicode.IsSpace`: Go's white-space predicate (Latin-1 range plus the
Unicode space code points of the `White_Space` property). -/
def goIsSpace (c : Char) : Bool :=
  c = ' ' ∨ c = '\t' ∨ c = '\n' ∨ c.toNat = 0x0B ∨ c.toNat = 0x0C ∨
  c = '\r' ∨ c.toNat = 0x85 ∨ c.toNat = 0xA0 ∨ c.toNat = 0x1680 ∨
  (0x2000 ≤ c.toNat ∧ c.toNat ≤ 0x200A) ∨ c.toNat = 0x2028 ∨
  c.toNat = 0x2029 ∨ c.toNat = 0x202F ∨ c.toNat = 0x205F ∨ c.toNat = 0x3000

/-- `strings.TrimSpace(s)`: strip leading and trailing white space. -/
def goTrimSpace (s : String) : String :=
  String.mk (((s.toList.dropWhile goIsSpace).reverse.dropWhile goIsSpace).reverse)

/-- UTF-8 encoding of one character, as byte values: models Go's
string-to-`[]byte` conversion character by character. -/
def utf8Char (c : Char) : List Nat :=
  let n := c.toNat
  if n < 0x80 then [n]
  else if n < 0x800 then [0xC0 ||| (n >>> 6), 0x80 ||| (n &&& 0x3F)]
  else if n < 0x10000 then
    [0xE0 ||| (n >>> 12), 0x80 ||| ((n >>> 6) &&& 0x3F), 0x80 ||| (n &&& 0x3F)]
  else
    [0xF0 ||| (n >>> 18), 0x80 ||| ((n >>> 12) &&& 0x3F),
     0x80 ||| ((n >>> 6) &&& 0x3F), 0x80 ||| (n &&& 0x3F)]

/-- `[]byte(s)`: the UTF-8 bytes of a Go string. -/
def utf8Bytes (s : String) : List Nat :=
  s.toList.flatMap utf8Char

/-- One character of Go's `%q` escaping (ASCII part; characters outside
the printable ASCII range, which no claim exercises, are rendered with a
`\u` escape). -/
def goQuoteChar (c : Char) : String :=
  if c = '"' then "\\\""
  else if c = '\\' then "\\\\"
  else if c = '\n' then "\\n"
  else if c = '\t' then "\\t"
  else if c = '\r' then "\\r"
  else if 0x20 ≤ c.toNat ∧ c.toNat < 0x7F then String.singleton c
  else "\\u" ++ String.mk (Nat.toDigits 16 c.toNat)

/-- `%q` / `strconv.Quote`: a double-quoted Go string literal. -/
def goQuote (s : String) : String :=
  "\"" ++ String.join (s.toList.map goQuoteChar) ++ "\""

/-! ### `strconv` parsers (base-0 integer parsing as used by `processField`) -/

/-- Go `strconv`'s `lower(c)`: force the ASCII case bit. -/
def goLower (c : Char) : Char := Char.ofNat (c.toNat ||| 0x20)

/-- The two `strconv.NumError` kinds: `ErrSyntax` and `ErrRange`. -/
inductive NumErr where
  | invalid : NumErr
  | range : NumErr
deriving DecidableEq, Repr

/-- `NumError.Error()`: `fn ++ ": parsing " ++ Quote(str) ++ ": " ++ kind`. -/
def numErrMsg (fn s : String) : NumErr → String
  | .invalid => fn ++ ": parsing " ++ goQuote s ++ ": invalid syntax"
  | .range => fn ++ ": parsing " ++ goQuote s ++ ": value out of range"

/-- The digit value of a character per `strconv.ParseUint`'s loop:
`'0'..'9'`, then case-insensitive `'a'..'z'` as 10..35. -/
def digitVal (c : Char) : Option Nat :=
  if '0' ≤ c ∧ c ≤ '9' then some (c.toNat - '0'.toNat)
  else if 'a' ≤ goLower c ∧ goLower c ≤ 'z' then some ((goLower c).toNat - 'a'.toNat + 10)
  else none

/-- Base detection for `ParseUint` with `base == 0`: `0b`/`0o`/`0x`
prefixes (only when at least one more character follows), else a leading
`0` selects octal, else decimal. Returns the base and remaining digits. -/
def baseAndDigits (s : List Char) : Nat × List Char :=
  match s with
  | c1 :: c2 :: c3 :: rest =>
    if c1 = '0' then
      if goLower c2 = 'b' then (2, c3 :: rest)
      else if goLower c2 = 'o' then (8, c3 :: rest)
      else if goLower c2 = 'x' then (16, c3 :: rest)
      else (8, c2 :: c3 :: rest)
    else (10, s)
  | c1 :: rest =>
    if c1 = '0' then (8, rest) else (10, s)
  | [] => (10, s)

/-- The digit loop of `strconv.ParseUint` (with `base0 = true`, as
`processField` always passes base 0): underscores are skipped here and
validated afterwards; a non-digit or an out-of-base digit is a syntax
error; exceeding `maxVal = 2^bits - 1` (or the `uint64` cutoff) is a
range error. Returns the value and whether an underscore was seen. -/
def parseUintDigits (base maxVal : Nat) : List Char → Nat → Bool → Except NumErr (Nat × Bool)
  | [], n, saw => .ok (n, saw)
  | c :: cs, n, saw =>
    if c = '_' then parseUintDigits base maxVal cs n true
    else
      match digitVal c with
      | none => .error .invalid
      | some d =>
        if base ≤ d then .error .invalid
        else if (2 ^ 64 - 1) / base + 1 ≤ n then .error .range
        else if maxVal < n * base + d then .error .range
        else parseUintDigits base maxVal cs (n * base + d) saw

/-- The underscore-placement check `strconv.underscoreOK`, state machine
over the characters; `saw` is `'^'` at the start, `'0'` after a digit or
base prefix, `'_'` after an underscore, `'!'` otherwise. -/
def underscoreOKLoop (hex : Bool) : List Char → Char → Bool
  | [], saw => saw ≠ '_'
  | c :: cs, saw =>
    if ('0' ≤ c ∧ c ≤ '9') ∨ (hex ∧ 'a' ≤ goLower c ∧ goLower c ≤ 'f') then
      underscoreOKLoop hex cs '0'
    else if c = '_' then
      if saw ≠ '0' then false else underscoreOKLoop hex cs '_'
    else if saw = '_' then false
    else underscoreOKLoop hex cs '!'

/-- `strconv.underscoreOK s`: underscores may appear only between digits
or between a base prefix and a digit. -/
def underscoreOK (s : List Char) : Bool :=
  let s1 := match s with
    | c :: rest => if c = '-' ∨ c = '+' then rest else s
    | [] => s
  match s1 with
  | '0' :: c2 :: rest =>
    if goLower c2 = 'b' ∨ goLower c2 = 'o' ∨ goLower c2 = 'x' then
      underscoreOKLoop (goLower c2 = 'x') rest '0'
    else underscoreOKLoop false s1 '^'
  | _ => underscoreOKLoop false s1 '^'

/-- `strconv.ParseUint(s, 0, bits)` without the error message: empty
string is a syntax error; detect the base, run the digit loop with
`maxVal = 2^bits - 1`, then validate underscore placement. -/
def parseUintCore (s : List Char) (bits : Nat) : Except NumErr Nat :=
  if s = [] then .error .invalid
  else
    let bd := baseAndDigits s
    match parseUintDigits bd.1 (2 ^ bits - 1) bd.2 0 false with
    | .error e => .error e
    | .ok (n, sawUnd) =>
      if sawUnd ∧ ¬underscoreOK s then .error .invalid else .ok n

/-- `strconv.ParseUint(value, 0, typ.Bits())`. -/
def parseGoUint (s : String) (bits : Nat) : Except String Nat :=
  match parseUintCore s.toList bits with
  | .ok n => .ok n
  | .error e => .error (numErrMsg "strconv.ParseUint" s e)

/-- `strconv.ParseInt(value, 0, typ.Bits())`: strip a sign, parse the rest
as unsigned (a range failure there yields `maxVal`, which also fails the
signed cutoff check), then check the signed range
`[-2^(bits-1), 2^(bits-1) - 1]`. -/
def parseGoInt (s : String) (bits : Nat) : Except String Int :=
  if s.toList = [] then .error (numErrMsg "strconv.ParseInt" s .invalid)
  else
    match parseUintCore
        (if s.toList.head? = some '-' ∨ s.toList.head? = some '+'
          then s.toList.tail else s.toList) bits with
    | .error .invalid => .error (numErrMsg "strconv.ParseInt" s .invalid)
    | .error .range => .error (numErrMsg "strconv.ParseInt" s .range)
    | .ok un =>
      if ¬(s.toList.head? = some '-') ∧ 2 ^ (bits - 1) ≤ un then
        .error (numErrMsg "strconv.ParseInt" s .range)
      else if s.toList.head? = some '-' ∧ 2 ^ (bits - 1) < un then
        .error (numErrMsg "strconv.ParseInt" s .range)
      else .ok (if s.toList.head? = some '-' then -(un : Int) else (un : Int))

/-- `strconv.ParseBool`: the exact accepted literal forms. -/
def parseGoBool (s : String) : Except String Bool :=
  if s = "1" ∨ s = "t" ∨ s = "T" ∨ s = "true" ∨ s = "TRUE" ∨ s = "True" then .ok true
  else if s = "0" ∨ s = "f" ∨ s = "F" ∨ s = "false" ∨ s = "FALSE" ∨ s = "False" then .ok false
  else .error (numErrMsg "strconv.ParseBool" s .invalid)

/-- Decimal value of a digit list (most significant first). -/
def decDigitsVal (l : List Char) : Nat :=
  l.foldl (fun a c => a * 10 + (c.toNat - '0'.toNat)) 0

/-- Model of `strconv.ParseFloat(value, typ.Bits())`, restricted to finite
decimal literals (optional sign, digits with an optional single decimal
point, optional `e`/`E` exponent) with exact rational semantics.  The
hexadecimal-float, `inf`/`NaN`, digit-underscore and overflow-to-infinity
behaviours of `ParseFloat` are outside the model: no claim exercises them,
and binary rounding is deliberately left out so that decimal literals
denote their exact values. -/
def parseGoFloat (s : String) : Except String Rat :=
  let l := s.toList
  let sg : Rat × List Char :=
    if l.head? = some '-' then (-1, l.tail)
    else if l.head? = some '+' then (1, l.tail)
    else (1, l)
  let ds1 := sg.2.takeWhile Char.isDigit
  let r1 := sg.2.dropWhile Char.isDigit
  let fr : List Char × List Char :=
    if r1.head? = some '.' then
      (r1.tail.takeWhile Char.isDigit, r1.tail.dropWhile Char.isDigit)
    else ([], r1)
  if ds1 = [] ∧ fr.1 = [] then .error (numErrMsg "strconv.ParseFloat" s .invalid)
  else
    let mant : Rat := (decDigitsVal (ds1 ++ fr.1) : Rat) / (10 : Rat) ^ fr.1.length
    if fr.2 = [] then .ok (sg.1 * mant)
    else if fr.2.head? = some 'e' ∨ fr.2.head? = some 'E' then
      let r3 := fr.2.tail
      let es : Bool × List Char :=
        if r3.head? = some '-' then (true, r3.tail)
        else if r3.head? = some '+' then (false, r3.tail)
        else (false, r3)
      let eds := es.2.takeWhile Char.isDigit
      if eds ≠ [] ∧ es.2.dropWhile Char.isDigit = [] then
        let ex := decDigitsVal eds
        .ok (if es.1 then sg.1 * mant / (10 : Rat) ^ ex
             else sg.1 * mant * (10 : Rat) ^ ex)
      else .error (numErrMsg "strconv.ParseFloat" s .invalid)
    else .error (numErrMsg "strconv.ParseFloat" s .invalid)

/-! ### `time.ParseDuration` model -/

/-- `time.leadingInt`: consume leading decimal digits into a value,
failing (like Go's `int64` overflow checks) when the value would exceed
`2^63 - 1`.  Returns the value and the unconsumed rest. -/
def durLeadingInt : List Char → Nat → Option (Nat × List Char)
  | [], x => some (x, [])
  | c :: cs, x =>
    if c.isDigit then
      if (2 ^ 63 - 1) / 10 < x then none
      else if 2 ^ 63 - 1 < x * 10 + (c.toNat - '0'.toNat) then none
      else durLeadingInt cs (x * 10 + (c.toNat - '0'.toNat))
    else some (x, c :: cs)

/-- `time.leadingFraction`: consume leading decimal digits as a fraction
numerator with its power-of-ten scale; once the numerator would overflow
`int64` it keeps consuming digits without accumulating.  Returns
`(f, scale, rest)`. -/
def durLeadingFrac : List Char → Nat → Nat → Bool → Nat × Nat × List Char
  | [], f, scale, _ => (f, scale, [])
  | c :: cs, f, scale, ovf =>
    if c.isDigit then
      if ovf then durLeadingFrac cs f scale ovf
      else if (2 ^ 63 - 1) / 10 < f then durLeadingFrac cs f scale true
      else
        let y := f * 10 + (c.toNat - '0'.toNat)
        if 2 ^ 63 - 1 < y then durLeadingFrac cs f scale true
        else durLeadingFrac cs y (scale * 10) false
    else (f, scale, c :: cs)

/-- `time.unitMap`: nanoseconds per unit literal (`µs` U+00B5 and `μs`
U+03BC both accepted). -/
def durUnits : List (List Char × Nat) :=
  [("ns".toList, 1), ("us".toList, 1000), (['\xb5', 's'], 1000),
   (['μ', 's'], 1000), ("ms".toList, 1000000), ("s".toList, 1000000000),
   ("m".toList, 60000000000), ("h".toList, 3600000000000)]

/-- The main loop of `time.ParseDuration` over the remaining characters:
each round reads digits, an optional fraction, and a unit, accumulating
nanoseconds in `d` with Go's `int64` overflow checks.  The fractional
contribution `f*unit/scale` is computed exactly and truncated, where Go
goes through `float64`; no claim exercises fractional durations.  `fuel`
bounds the recursion; every round consumes at least one character (a round
consuming none fails), so `fuel = length + 1` never runs out. -/
def durLoop (orig : String) : Nat → List Char → Nat → Except String Nat
  | 0, _, _ => .error ("time: invalid duration " ++ goQuote orig)
  | _, [], d => .ok d
  | fuel + 1, s@(c :: _), d =>
    if ¬(c = '.' ∨ c.isDigit) then .error ("time: invalid duration " ++ goQuote orig)
    else
      match durLeadingInt s 0 with
      | none => .error ("time: invalid duration " ++ goQuote orig)
      | some (v, s1) =>
        let pre := decide (s1.length ≠ s.length)
        let fp : Nat × Nat × List Char × Bool :=
          if s1.head? = some '.' then
            let fr := durLeadingFrac s1.tail 0 1 false
            (fr.1, fr.2.1, fr.2.2, decide (fr.2.2.length ≠ s1.tail.length))
          else (0, 1, s1, false)
        if ¬pre ∧ ¬fp.2.2.2 then .error ("time: invalid duration " ++ goQuote orig)
        else
          let us := fp.2.2.1.takeWhile fun ch => ¬(ch = '.' ∨ ch.isDigit)
          let s3 := fp.2.2.1.dropWhile fun ch => ¬(ch = '.' ∨ ch.isDigit)
          if us = [] then .error ("time: missing unit in duration " ++ goQuote orig)
          else
            match List.lookup us durUnits with
            | none =>
              .error ("time: unknown unit " ++ goQuote (String.mk us) ++
                " in duration " ++ goQuote orig)
            | some unit =>
              if (2 ^ 63 - 1) / unit < v then
                .error ("time: invalid duration " ++ goQuote orig)
              else
                let v1 := v * unit
                let v2 := if 0 < fp.1 then v1 + fp.1 * unit / fp.2.1 else v1
                if 0 < fp.1 ∧ 2 ^ 63 - 1 < v2 then
                  .error ("time: invalid duration " ++ goQuote orig)
                else if 2 ^ 63 - 1 < d + v2 then
                  .error ("time: invalid duration " ++ goQuote orig)
                else durLoop orig fuel s3 (d + v2)

/-- `time.ParseDuration(value)`: optional sign, the special case `"0"`,
then repeated number-unit groups; result in nanoseconds. -/
def parseGoDuration (s : String) : Except String Int :=
  let l := s.toList
  let sg : Bool × List Char :=
    match l with
    | c :: r => if c = '-' ∨ c = '+' then (c = '-', r) else (false, l)
    | [] => (false, l)
  if sg.2 = ['0'] then .ok 0
  else if sg.2 = [] then .error ("time: invalid duration " ++ goQuote s)
  else
    match durLoop s (sg.2.length + 1) sg.2 0 with
    | .ok d => .ok (if sg.1 then -(d : Int) else (d : Int))
    | .error e => .error e

/-! ### The value decoder `processField` -/

theorem GoType.sizeOf_pos (t : GoType) : 0 < sizeOf t := by
  cases t <;> simp_arith

mutual
/-- Structural equality of Go values, modelling Go's `==` on map keys
(which, for the scalar key types the decoder can produce, is value
equality). -/
def goValueBeq : GoValue → GoValue → Bool
  | .vstring a, .vstring b => a == b
  | .vbool a, .vbool b => a == b
  | .vint b1 a1, .vint b2 a2 => b1 == b2 && a1 == a2
  | .vduration a, .vduration b => a == b
  | .vuint b1 a1, .vuint b2 a2 => b1 == b2 && a1 == a2
  | .vfloat b1 a1, .vfloat b2 a2 => b1 == b2 && a1 == a2
  | .vslice t1 none, .vslice t2 none => t1 == t2
  | .vslice t1 (some l1), .vslice t2 (some l2) => t1 == t2 && goValuesBeq l1 l2
  | .varray t1 l1, .varray t2 l2 => t1 == t2 && goValuesBeq l1 l2
  | .vmap k1 v1 e1, .vmap k2 v2 e2 => k1 == k2 && v1 == v2 && goPairsBeq e1 e2
  | .vstruct f1, .vstruct f2 => goFieldsBeq f1 f2
  | .vother, .vother => true
  | _, _ => false

/-- Elementwise `goValueBeq` on lists. -/
def goValuesBeq : List GoValue → List GoValue → Bool
  | [], [] => true
  | a :: ra, b :: rb => goValueBeq a b && goValuesBeq ra rb
  | _, _ => false

/-- Elementwise `goValueBeq` on entry lists. -/
def goPairsBeq : List (GoValue × GoValue) → List (GoValue × GoValue) → Bool
  | [], [] => true
  | (k1, v1) :: r1, (k2, v2) :: r2 =>
    goValueBeq k1 k2 && goValueBeq v1 v2 && goPairsBeq r1 r2
  | _, _ => false

/-- Elementwise equality on field lists. -/
def goFieldsBeq : List GoField → List GoField → Bool
  | [], [] => true
  | .mk t1 c1 v1 :: r1, .mk t2 c2 v2 :: r2 =>
    t1 == t2 && c1 == c2 && goValueBeq v1 v2 && goFieldsBeq r1 r2
  | _, _ => false
end

/-- `reflect.Value.SetMapIndex(k, v)` on an association-list map image:
replace the entry of an existing equal key, else append. -/
def mapSet (entries : List (GoValue × GoValue)) (k v : GoValue) :
    List (GoValue × GoValue) :=
  if entries.any fun p => goValueBeq p.1 k then
    entries.map fun p => if goValueBeq p.1 k then (p.1, v) else p
  else entries ++ [(k, v)]

mutual
/-- `processField(value, field)` from `ssmconfig.go`: decode the raw
string into the field according to the field type's kind.  The result is
the field's value after the call; `.error` is a `return err` taken before
any `field.Set*`, so the field then keeps its previous value `old`
(`old` is also the result in the kind-switch's implicit default case,
which performs no assignment — note the switch has no `reflect.Array`
or `reflect.Struct` case). -/
def processField (value : String) (ft : GoType) (old : GoValue) : Except String GoValue :=
  match ft with
  | .tstring => .ok (.vstring value)
  | .tint bits =>
    match parseGoInt value bits with
    | .ok n => .ok (.vint bits n)
    | .error e => .error e
  | .tduration =>
    match parseGoDuration value with
    | .ok d => .ok (.vduration d)
    | .error e => .error e
  | .tuint bits =>
    match parseGoUint value bits with
    | .ok n => .ok (.vuint bits n)
    | .error e => .error e
  | .tbool =>
    match parseGoBool value with
    | .ok b => .ok (.vbool b)
    | .error e => .error e
  | .tfloat bits =>
    match parseGoFloat value with
    | .ok q => .ok (.vfloat bits q)
    | .error e => .error e
  | .tslice elem =>
    if elem = .tuint 8 then
      .ok (.vslice elem (some ((utf8Bytes value).map (.vuint 8 ·))))
    else if (goTrimSpace value).length ≠ 0 then
      match decodeList (goSplit value ',') elem with
      | .ok vs => .ok (.vslice elem (some vs))
      | .error e => .error e
    else .ok (.vslice elem (some []))
  | .tmap kt vt =>
    if (goTrimSpace value).length ≠ 0 then
      match decodeMapPairs (goSplit value ',') kt vt [] with
      | .ok entries => .ok (.vmap kt vt entries)
      | .error e => .error e
    else .ok (.vmap kt vt [])
  | _ => .ok old
termination_by (sizeOf ft, 0)
decreasing_by
  all_goals exact Prod.Lex.left _ _ (by simp_arith)

/-- The slice-element loop of `processField`'s `reflect.Slice` case:
decode each comma-separated segment into a fresh zero element
(`sl.Index(i)`), returning the first error. -/
def decodeList (ss : List String) (elem : GoType) : Except String (List GoValue) :=
  match ss with
  | [] => .ok []
  | s :: rest =>
    match processField s elem (goZero elem) with
    | .error e => .error e
    | .ok v =>
      match decodeList rest elem with
      | .error e => .error e
      | .ok vs => .ok (v :: vs)
termination_by (sizeOf elem, ss.length + 1)
decreasing_by
  · exact Prod.Lex.right _ (by simp_arith)
  · exact Prod.Lex.right _ (by simp_arith)

/-- The pair loop of `processField`'s `reflect.Map` case: split each pair
on `':'`, requiring exactly two parts (`fmt.Errorf("invalid map item: %q",
pair)` otherwise), decode key and value into fresh zeros, and insert
left-to-right. -/
def decodeMapPairs (ps : List String) (kt vt : GoType)
    (acc : List (GoValue × GoValue)) : Except String (List (GoValue × GoValue)) :=
  match ps with
  | [] => .ok acc
  | p :: rest =>
    match goSplit p ':' with
    | [ks, vs] =>
      match processField ks kt (goZero kt) with
      | .error e => .error e
      | .ok k =>
        match processField vs vt (goZero vt) with
        | .error e => .error e
        | .ok v => decodeMapPairs rest kt vt (mapSet acc k v)
    | _ => .error ("invalid map item: " ++ goQuote p)
termination_by (sizeOf kt + sizeOf vt, ps.length + 1)
decreasing_by
  · exact Prod.Lex.left _ _ (by
      have h2 := GoType.sizeOf_pos vt
      omega)
  · exact Prod.Lex.left _ _ (by
      have h1 := GoType.sizeOf_pos kt
      omega)
  · exact Prod.Lex.right _ (by simp_arith)
end

/-! ### The field walker and `Process` -/

mutual
/-- Structural size of a value, used as the walker's termination measure. -/
def goValSize : GoValue → Nat
  | .vstruct fs => 1 + goFieldsSize fs
  | _ => 1

/-- Total structural size of a field list's values. -/
def goFieldsSize : List GoField → Nat
  | [] => 0
  | .mk _ _ v :: fs => goValSize v + goFieldsSize fs
end

theorem goValSize_pos (v : GoValue) : 0 < goValSize v := by
  cases v <;> simp [goValSize]

/-- A `queueObject` of `ssmconfig.go` as used by the walk: the field's
location in the root struct (`path`, a trail of field indices), its
`ssmparam` tag, its settability, its value, and the accumulated prefix. -/
structure QEntry where
  path : List Nat
  tag : String
  canSet : Bool
  value : GoValue
  pfx : String
deriving Repr

/-- Enqueue the fields of a struct in declaration order (the
`for i := 0; i < s.NumField(); i++` loops of `Process`), numbering them
from `i` and recording the given prefix. -/
def mkEntries (path : List Nat) (pfx : String) : Nat → List GoField → List QEntry
  | _, [] => []
  | i, .mk t c v :: fs => ⟨path ++ [i], t, c, v, pfx⟩ :: mkEntries path pfx (i + 1) fs

/-- Insert into the `infos` map (`infos[key] = q.field`): replace the
entry of an existing key, else append. -/
def mapInsert (m : List (String × List Nat)) (k : String) (p : List Nat) :
    List (String × List Nat) :=
  if m.any fun q => q.1 = k then
    m.map fun q => if q.1 = k then (k, p) else q
  else m ++ [(k, p)]

/-- Termination measure: total value size of the queue. -/
def qMeasure (qs : List QEntry) : Nat := (qs.map fun e => goValSize e.value).sum

theorem qMeasure_cons (e : QEntry) (qs : List QEntry) :
    qMeasure (e :: qs) = goValSize e.value + qMeasure qs := rfl

theorem qMeasure_append (a b : List QEntry) :
    qMeasure (a ++ b) = qMeasure a + qMeasure b := by
  simp [qMeasure]

theorem qMeasure_mkEntries (path : List Nat) (pfx : String) :
    ∀ (fs : List GoField) (i : Nat), qMeasure (mkEntries path pfx i fs) = goFieldsSize fs := by
  intro fs
  induction fs with
  | nil => intro i; simp [mkEntries, qMeasure, goFieldsSize]
  | cons f fs ih =>
    intro i
    cases f with
    | mk t c v => simp [mkEntries, qMeasure_cons, ih, goFieldsSize]

/-- The queue loop of `Process` (`for { ... }` over `queue`): pop the
front entry; skip it if not settable; if its value is a struct, enqueue
the struct's fields with prefix `q.prefix + ssmparam`; otherwise, if it
has a tag, record `prefix + tag ↦ field` in `infos`. -/
def walkLoop : List QEntry → List (String × List Nat) → List (String × List Nat)
  | [], infos => infos
  | q :: rest, infos =>
    if ¬q.canSet then walkLoop rest infos
    else
      match hv : q.value with
      | .vstruct fs => walkLoop (rest ++ mkEntries q.path (q.pfx ++ q.tag) 0 fs) infos
      | _ =>
        if q.tag = "" then walkLoop rest infos
        else walkLoop rest (mapInsert infos (q.pfx ++ q.tag) q.path)
termination_by qs _ => qMeasure qs
decreasing_by
  all_goals simp only [qMeasure_cons, qMeasure_append, qMeasure_mkEntries]
  all_goals have h := goValSize_pos q.value
  · omega
  · rw [hv]; simp [goValSize, goFieldsSize]; omega
  all_goals omega

/-- The walk phase of `Process`: enqueue the root struct's fields with
the call prefix, then run the queue, producing the name-to-field map. -/
def walk (fields : List GoField) (pfx : String) : List (String × List Nat) :=
  walkLoop (mkEntries [] pfx 0 fields) []

/-- Replace the `n`-th element of a field list using `g`. -/
def setNth : List GoField → Nat → (GoField → GoField) → List GoField
  | [], _, _ => []
  | f :: fs, 0, g => g f :: fs
  | f :: fs, n + 1, g => f :: setNth fs n g

/-- Read the value at a field path of a struct's field list. -/
def getAtPath (fs : List GoField) : List Nat → GoValue
  | [] => .vother
  | [i] =>
    match fs[i]? with
    | some f => f.value
    | none => .vother
  | i :: rest =>
    match fs[i]? with
    | some (.mk _ _ (.vstruct gs)) => getAtPath gs rest
    | _ => .vother

/-- Write a value at a field path of a struct's field list: the model of
mutating through the `reflect.Value` stored in `infos`. -/
def setAtPath (fs : List GoField) : List Nat → GoValue → List GoField
  | [], _ => fs
  | [i], v => setNth fs i fun f => match f with | .mk t c _ => .mk t c v
  | i :: rest, v =>
    setNth fs i fun f =>
      match f with
      | .mk t c (.vstruct gs) => .mk t c (.vstruct (setAtPath gs rest v))
      | g => g

/-- The decode loop of `Process` (`for _, param := range out.Parameters`):
look each returned name up in `infos`, skipping unknown names; decode the
value into the mapped field, returning the first decode error together
with the record state at that point (already-processed fields stay
mutated). -/
def applyParams (infos : List (String × List Nat)) :
    List (String × String) → List GoField → Option String × List GoField
  | [], r => (none, r)
  | (n, v) :: rest, r =>
    match (infos.find? fun q => q.1 = n).map (fun q => q.2) with
    | none => applyParams infos rest r
    | some path =>
      match processField v (getAtPath r path).typeOf (getAtPath r path) with
      | .error e => (some e, r)
      | .ok newV => applyParams infos rest (setAtPath r path newV)

/-- The `spec interface{}` argument of `Process`, as `reflect.ValueOf`
distinguishes it: a nil interface (kind `Invalid`), a non-pointer value,
a nil typed pointer (whose `Elem()` has kind `Invalid`), or a non-nil
pointer to a value. -/
inductive SpecArg where
  | nilInterface : SpecArg
  | nonPtr : GoValue → SpecArg
  | nilPtr : SpecArg
  | ptrTo : GoValue → SpecArg
deriving Repr

/-- The error returned by `Process`: one of the two `errors.New` spec
validation errors, the store's own error propagated by `return err`
(carried intact as a value of `ε`), or a decode error string from
`processField`. -/
inductive ProcErr (ε : Type) where
  | invalidSpec : String → ProcErr ε
  | storeErr : ε → ProcErr ε
  | decodeErr : String → ProcErr ε
deriving Repr

/-- The `ssm.GetParametersInput` built by `Process`: the list of `infos`
keys as `Names`, and `WithDecryption: aws.Bool(true)`. -/
def buildRequest (infos : List (String × List Nat)) : List String × Bool :=
  (infos.map fun q => q.1, true)

/-- `Process(ssmsvc, prefix, spec)` from `ssmconfig.go`.  The store is a
function from a `GetParameters` request (names, decryption flag) to
either an error of type `ε` or the returned (name, value) parameter list.
The result pairs the returned error (if any) with the final state of the
`spec` argument, modelling its in-place mutation. -/
def Process {ε : Type} (store : List String → Bool → Except ε (List (String × String)))
    (pfx : String) (spec : SpecArg) : Option (ProcErr ε) × SpecArg :=
  match spec with
  | .nilInterface => (some (.invalidSpec "spec must be non-nil pointer"), spec)
  | .nonPtr v => (some (.invalidSpec "spec must be non-nil pointer"), .nonPtr v)
  | .nilPtr => (some (.invalidSpec "spec must be a struct type"), spec)
  | .ptrTo v =>
    match v with
    | .vstruct fields =>
      let infos := walk fields pfx
      let req := buildRequest infos
      match store req.1 req.2 with
      | .error e => (some (.storeErr e), .ptrTo (.vstruct fields))
      | .ok params =>
        match applyParams infos params fields with
        | (some e, r) => (some (.decodeErr e), .ptrTo (.vstruct r))
        | (none, r) => (none, .ptrTo (.vstruct r))
    | w => (some (.invalidSpec "spec must be a struct type"), .ptrTo w)

/-! ### Derived notions used by the specification statements -/

/-- A record has no bound fields: every settable field either is a
sub-struct none of whose fields are bound (recursively), or carries no
`ssmparam` tag.  Non-settable fields are skipped by the walk regardless
of their tags. -/
def noBoundFields : List GoField → Bool
  | [] => true
  | .mk _ c (.vstruct gs) :: fs =>
    (if c then noBoundFields gs else true) && noBoundFields fs
  | .mk t c v :: fs => (if c then t == "" else true) && noBoundFields fs
termination_by fs => goFieldsSize fs
decreasing_by
  all_goals simp [goFieldsSize, goValSize]
  all_goals first
    | omega
    | (have h := goValSize_pos v; omega)

/-- The field reached from a struct's field list by a trail of field
indices. -/
def fieldAt (fs : List GoField) : List Nat → Option GoField
  | [] => none
  | [i] => fs[i]?
  | i :: rest =>
    match fs[i]? with
    | some (.mk _ _ (.vstruct gs)) => fieldAt gs rest
    | _ => none

/-- The concatenation of the tags of a path's proper ancestors: the tags
of the sub-struct fields traversed strictly before the final index. -/
def ancTags (fs : List GoField) : List Nat → Option String
  | [] => none
  | [_] => some ""
  | i :: rest =>
    match fs[i]? with
    | some (.mk t _ (.vstruct gs)) => (ancTags gs rest).map fun u => t ++ u
    | _ => none

/-- The decimal digit characters of a natural number, most significant
first (the canonical form produced by Go's `strconv.FormatUint(n, 10)`). -/
def natToChars (n : Nat) : List Char :=
  if n < 10 then [Char.ofNat (48 + n)]
  else natToChars (n / 10) ++ [Char.ofNat (48 + n % 10)]
termination_by n
decreasing_by exact Nat.div_lt_self (by omega) (by omega)

/-- Canonical decimal string of a natural number. -/
def natCanon (n : Nat) : String := String.mk (natToChars n)

/-- Canonical decimal string of an integer (`strconv.FormatInt(i, 10)`). -/
def intCanon (i : Int) : String :=
  if i < 0 then String.mk ('-' :: natToChars i.natAbs) else natCanon i.natAbs

/-- Running value of the `ParseUint` digit loop started from `acc`. -/
def valFrom (acc : Nat) (ds : List Char) : Nat :=
  ds.foldl (fun a c => a * 10 + (c.toNat - '0'.toNat)) acc

/-- The example record of the specification's nesting scenario (the
`SmallConfig` of the test suite): a settable sub-record field tagged
`"/prefixnested"` containing a settable string field tagged
`"/nested/key"`. -/
def smallConfig : List GoField :=
  [.mk "/prefixnested" true (.vstruct [.mk "/nested/key" true (.vstring "")])]

/-- Pair `p` decodes under key type `kt` and element type `vt` to the
entry `kv`: it splits on `':'` into exactly two parts whose recursive
decodes succeed with `kv`'s components. -/
def pairDecodes (kt vt : GoType) (p : String) (kv : GoValue × GoValue) : Prop :=
  ∃ ks vs, goSplit p ':' = [ks, vs] ∧
    processField ks kt (goZero kt) = .ok kv.1 ∧
    processField vs vt (goZero vt) = .ok kv.2

/-! ### Helper lemmas -/

theorem decodeList_nil (elem : GoType) : decodeList [] elem = .ok [] := by
  simp [decodeList]

theorem decodeList_of_forall₂ {elem : GoType} :
    ∀ {ss : List String} {vs : List GoValue},
      List.Forall₂ (fun s v => processField s elem (goZero elem) = .ok v) ss vs →
      decodeList ss elem = .ok vs := by
  intro ss vs h
  induction h with
  | nil => simp [decodeList]
  | cons h _ ih => rw [decodeList]; rw [h, ih]

theorem decodeList_error {elem : GoType} {e : String} :
    ∀ {pre : List String} {s : String} {post : List String},
      (∀ q ∈ pre, ∃ v, processField q elem (goZero elem) = .ok v) →
      processField s elem (goZero elem) = .error e →
      decodeList (pre ++ s :: post) elem = .error e := by
  intro pre
  induction pre with
  | nil => intro s post _ hs; rw [List.nil_append, decodeList, hs]
  | cons q pre ih =>
    intro s post hpre hs
    obtain ⟨v, hv⟩ := hpre q (by simp)
    rw [List.cons_append, decodeList, hv,
      ih (fun r hr => hpre r (by simp [hr])) hs]

theorem decodeMapPairs_of_forall₂ {kt vt : GoType} :
    ∀ {ps : List String} {kvs : List (GoValue × GoValue)},
      List.Forall₂ (pairDecodes kt vt) ps kvs →
      ∀ acc, decodeMapPairs ps kt vt acc
        = .ok (kvs.foldl (fun a kv => mapSet a kv.1 kv.2) acc) := by
  intro ps kvs h
  induction h with
  | nil => intro acc; simp [decodeMapPairs]
  | cons h _ ih =>
    intro acc
    obtain ⟨ks, vs, hsplit, hk, hv⟩ := h
    rw [decodeMapPairs, hsplit]
    simp only [hk, hv, ih, List.foldl_cons]

theorem decodeMapPairs_malformed {kt vt : GoType} {acc : List (GoValue × GoValue)}
    {p : String} {rest : List String} (h : (goSplit p ':').length ≠ 2) :
    decodeMapPairs (p :: rest) kt vt acc
      = .error ("invalid map item: " ++ goQuote p) := by
  rw [decodeMapPairs]
  rcases hs : goSplit p ':' with _ | ⟨a, _ | ⟨b, _ | ⟨c, l⟩⟩⟩ <;>
    simp_all

theorem decodeMapPairs_key_error {kt vt : GoType} {acc : List (GoValue × GoValue)}
    {p ks vs : String} {rest : List String} {e : String}
    (hsplit : goSplit p ':' = [ks, vs])
    (hk : processField ks kt (goZero kt) = .error e) :
    decodeMapPairs (p :: rest) kt vt acc = .error e := by
  rw [decodeMapPairs, hsplit]
  simp only [hk]

theorem decodeMapPairs_value_error {kt vt : GoType} {acc : List (GoValue × GoValue)}
    {p ks vs : String} {rest : List String} {k : GoValue} {e : String}
    (hsplit : goSplit p ':' = [ks, vs])
    (hk : processField ks kt (goZero kt) = .ok k)
    (hv : processField vs vt (goZero vt) = .error e) :
    decodeMapPairs (p :: rest) kt vt acc = .error e := by
  rw [decodeMapPairs, hsplit]
  simp only [hk, hv]

theorem processField_slice_bytes (s : String) (old : GoValue) :
    processField s (.tslice (.tuint 8)) old
      = .ok (.vslice (.tuint 8) (some ((utf8Bytes s).map (.vuint 8 ·)))) := by
  rw [processField]
  simp

theorem processField_slice_decode {elem : GoType} (hne : elem ≠ .tuint 8)
    (s : String) (old : GoValue) (hs : (goTrimSpace s).length ≠ 0) :
    processField s (.tslice elem) old
      = match decodeList (goSplit s ',') elem with
        | .ok vs => .ok (.vslice elem (some vs))
        | .error e => .error e := by
  rw [processField]
  simp [hne, hs]

theorem processField_slice_empty {elem : GoType} (hne : elem ≠ .tuint 8)
    (s : String) (old : GoValue) (hs : (goTrimSpace s).length = 0) :
    processField s (.tslice elem) old = .ok (.vslice elem (some [])) := by
  rw [processField]
  simp [hne, hs]

theorem processField_map_decode (kt vt : GoType)
    (s : String) (old : GoValue) (hs : (goTrimSpace s).length ≠ 0) :
    processField s (.tmap kt vt) old
      = match decodeMapPairs (goSplit s ',') kt vt [] with
        | .ok entries => .ok (.vmap kt vt entries)
        | .error e => .error e := by
  rw [processField]
  simp [hs]

theorem processField_array (s : String) (n : Nat) (t : GoType) (old : GoValue) :
    processField s (.tarray n t) old = .ok old := by
  rw [processField] <;> intros <;> simp_all


/-- A queue entry that contributes nothing to `infos`: if settable, then
either its value is a sub-struct with no bound fields, or it is a leaf
with an empty tag. -/
def entryNoBound (e : QEntry) : Prop :=
  e.canSet = true →
    (∀ gs, e.value = .vstruct gs → noBoundFields gs = true) ∧
    ((∀ gs, e.value ≠ .vstruct gs) → e.tag = "")

theorem mkEntries_mem {e : QEntry} (path : List Nat) (pfx : String) :
    ∀ (fs : List GoField) (i : Nat), e ∈ mkEntries path pfx i fs →
    ∃ f ∈ fs, e.tag = f.tag ∧ e.canSet = f.canSet ∧ e.value = f.value := by
  intro fs
  induction fs with
  | nil => intro i h; simp [mkEntries] at h
  | cons f fs ih =>
    intro i h
    cases f with
    | mk t c v =>
      rw [mkEntries] at h
      rcases List.mem_cons.mp h with he | he
      · exact ⟨.mk t c v, by simp, by simp [he, GoField.tag, GoField.canSet, GoField.value]⟩
      · obtain ⟨g, hg, hh⟩ := ih (i + 1) he
        exact ⟨g, by simp [hg], hh⟩

theorem noBound_mem {fs : List GoField} (h : noBoundFields fs = true) :
    ∀ f ∈ fs, f.canSet = true →
      (∀ gs, f.value = .vstruct gs → noBoundFields gs = true) ∧
      ((∀ gs, f.value ≠ .vstruct gs) → f.tag = "") := by
  induction fs with
  | nil => intro f hf; simp at hf
  | cons g fs ih =>
    intro f hf hc
    have hrec : noBoundFields fs = true := by
      cases g with
      | mk t c v =>
        cases v <;> simp [noBoundFields] at h <;> tauto
    rcases List.mem_cons.mp hf with he | he
    · subst he
      cases f with
      | mk t c v =>
        simp [GoField.canSet] at hc
        subst hc
        cases v <;> simp [noBoundFields] at h <;>
          simp [GoField.value, GoField.tag] <;> tauto
    · exact ih hrec f he hc

theorem noBound_entries {fs : List GoField} (h : noBoundFields fs = true)
    (path : List Nat) (pfx : String) (i : Nat) :
    ∀ e ∈ mkEntries path pfx i fs, entryNoBound e := by
  intro e he hc
  obtain ⟨f, hf, ht, hcs, hv⟩ := mkEntries_mem path pfx fs i he
  rw [ht, hv]
  exact noBound_mem h f hf (hcs ▸ hc)

theorem walkLoop_noBound :
    ∀ (qs : List QEntry) (infos : List (String × List Nat)),
      (∀ e ∈ qs, entryNoBound e) → walkLoop qs infos = infos := by
  intro qs infos
  induction qs, infos using walkLoop.induct with
  | case1 infos => intro _; rw [walkLoop]
  | case2 q rest infos hskip ih =>
    intro hq
    rw [walkLoop]
    simp only [if_pos hskip]
    exact ih fun e he => hq e (List.mem_cons_of_mem q he)
  | case3 q rest infos hset fs hv ih =>
    intro hq
    have hcs : q.canSet = true := by
      by_contra hc
      exact hset (by simpa using hc)
    have hnb := (hq q (by simp) hcs).1 fs hv
    obtain ⟨path, tag, canSet, value, pfx⟩ := q
    simp only at hv
    subst hv
    rw [walkLoop]
    simp only [if_neg hset]
    refine ih fun e he => ?_
    rcases List.mem_append.mp he with hr | hm
    · exact hq e (List.mem_cons_of_mem _ hr)
    · exact noBound_entries hnb path (pfx ++ tag) 0 e hm
  | case4 q rest infos hset htag hns ih =>
    intro hq
    have hred : walkLoop (q :: rest) infos = walkLoop rest infos := by
      obtain ⟨path, tag, canSet, value, pfx⟩ := q
      simp only at hns htag hset
      rw [walkLoop]
      simp only [if_neg hset]
      cases value <;> first
        | (exact absurd rfl (hns _))
        | simp [htag]
    rw [hred]
    exact ih fun e he => hq e (List.mem_cons_of_mem q he)
  | case5 q rest infos hset htag hns ih =>
    intro hq
    have hcs : q.canSet = true := by
      by_contra hc
      exact hset (by simpa using hc)
    exact absurd ((hq q (by simp) hcs).2 hns) htag

theorem walk_noBound {fields : List GoField} (pfx : String)
    (h : noBoundFields fields = true) : walk fields pfx = [] :=
  walkLoop_noBound _ _ (noBound_entries h [] pfx 0)

theorem applyParams_nil_infos :
    ∀ (params : List (String × String)) (r : List GoField),
      applyParams [] params r = (none, r) := by
  intro params
  induction params with
  | nil => intro r; rfl
  | cons p rest ih =>
    intro r
    cases p with
    | mk n v => rw [applyParams]; simpa using ih r

theorem charOfNat_toNat {n : Nat} (h : n < 0xD800) : (Char.ofNat n).toNat = n := by
  simp [Char.ofNat, Char.toNat]
  rw [dif_pos (by constructor; omega)]
  rfl

theorem char_ne_of_toNat_ne {c d : Char} (h : c.toNat ≠ d.toNat) : c ≠ d :=
  fun he => h (congrArg Char.toNat he)

theorem valFrom_nil (a : Nat) : valFrom a [] = a := rfl

theorem valFrom_cons (a : Nat) (c : Char) (ds : List Char) :
    valFrom a (c :: ds) = valFrom (a * 10 + (c.toNat - '0'.toNat)) ds := rfl

theorem valFrom_append (a : Nat) (xs ys : List Char) :
    valFrom a (xs ++ ys) = valFrom (valFrom a xs) ys := by
  simp [valFrom, List.foldl_append]

theorem valFrom_ge : ∀ (ds : List Char) (a : Nat), a ≤ valFrom a ds := by
  intro ds
  induction ds with
  | nil => intro a; simp [valFrom_nil]
  | cons c cs ih =>
    intro a
    rw [valFrom_cons]
    exact le_trans (by omega) (ih (a * 10 + (c.toNat - '0'.toNat)))

theorem digitVal_digit {c : Char} (h : 48 ≤ c.toNat ∧ c.toNat ≤ 57) :
    digitVal c = some (c.toNat - '0'.toNat) := by
  have h0 : ('0' ≤ c ∧ c ≤ '9') := by
    rw [Char.le_def, Char.le_def]
    exact h
  rw [digitVal, if_pos h0]

/-- The `ParseUint` digit loop evaluates a pure decimal digit string to
its value (accumulator form), as long as the final value stays within
`maxVal`. -/
theorem parseUintDigits_ok {maxVal : Nat} (hmax : maxVal ≤ 2 ^ 64 - 1) :
    ∀ (ds : List Char) (acc : Nat),
      (∀ c ∈ ds, 48 ≤ c.toNat ∧ c.toNat ≤ 57) →
      valFrom acc ds ≤ maxVal →
      parseUintDigits 10 maxVal ds acc false = .ok (valFrom acc ds, false) := by
  intro ds
  induction ds with
  | nil => intro acc _ _; rw [parseUintDigits, valFrom_nil]
  | cons c cs ih =>
    intro acc hds hval
    have hc := hds c (by simp)
    have hl : c ≠ '_' := char_ne_of_toNat_ne (by simp; omega)
    have hd : digitVal c = some (c.toNat - '0'.toNat) := digitVal_digit hc
    have hstep : valFrom acc (c :: cs)
        = valFrom (acc * 10 + (c.toNat - '0'.toNat)) cs := valFrom_cons _ _ _
    have hge : acc * 10 + (c.toNat - '0'.toNat)
        ≤ valFrom (acc * 10 + (c.toNat - '0'.toNat)) cs := valFrom_ge _ _
    have hbound : acc * 10 + (c.toNat - '0'.toNat) ≤ maxVal := by
      rw [hstep] at hval; omega
    rw [parseUintDigits, if_neg hl]
    simp only [hd]
    have hd10 : ¬(10 ≤ c.toNat - '0'.toNat) := by
      have : '0'.toNat = 48 := rfl
      omega
    rw [if_neg hd10]
    have hcut : ¬((2 ^ 64 - 1) / 10 + 1 ≤ acc) := by
      have h10 : acc * 10 ≤ 2 ^ 64 - 1 := by omega
      have := (Nat.le_div_iff_mul_le (show 0 < 10 by omega)).mpr h10
      omega
    rw [if_neg hcut, if_neg (by omega)]
    rw [hstep]
    exact ih _ (fun x hx => hds x (by simp [hx])) (hstep ▸ hval)

theorem natToChars_digits :
    ∀ (n : Nat), ∀ c ∈ natToChars n, 48 ≤ c.toNat ∧ c.toNat ≤ 57 := by
  intro n
  induction n using Nat.strong_induction_on with
  | _ n ih =>
    intro c hc
    by_cases h : n < 10
    · rw [natToChars, if_pos h] at hc
      simp at hc
      subst hc
      rw [charOfNat_toNat (by omega)]
      omega
    · rw [natToChars, if_neg h] at hc
      rcases List.mem_append.mp hc with hm | hm
      · exact ih (n / 10) (Nat.div_lt_self (by omega) (by omega)) c hm
      · simp at hm
        subst hm
        rw [charOfNat_toNat (by omega)]
        omega

theorem valFrom_natToChars : ∀ (n : Nat), valFrom 0 (natToChars n) = n := by
  intro n
  induction n using Nat.strong_induction_on with
  | _ n ih =>
    by_cases h : n < 10
    · rw [natToChars, if_pos h, valFrom_cons, valFrom_nil,
        charOfNat_toNat (by omega)]
      have : '0'.toNat = 48 := rfl
      omega
    · rw [natToChars, if_neg h, valFrom_append,
        ih (n / 10) (Nat.div_lt_self (by omega) (by omega)),
        valFrom_cons, valFrom_nil, charOfNat_toNat (by omega)]
      have : '0'.toNat = 48 := rfl
      omega

theorem natToChars_ne_nil (n : Nat) : natToChars n ≠ [] := by
  by_cases h : n < 10
  · rw [natToChars, if_pos h]; simp
  · rw [natToChars, if_neg h]; simp

theorem natToChars_head :
    ∀ (n : Nat), 1 ≤ n → ∃ c cs, natToChars n = c :: cs ∧ 49 ≤ c.toNat ∧ c.toNat ≤ 57 := by
  intro n
  induction n using Nat.strong_induction_on with
  | _ n ih =>
    intro h1
    by_cases h : n < 10
    · refine ⟨Char.ofNat (48 + n), [], ?_, ?_⟩
      · rw [natToChars, if_pos h]
      · rw [charOfNat_toNat (by omega)]; omega
    · obtain ⟨c, cs, heq, hc⟩ :=
        ih (n / 10) (Nat.div_lt_self (by omega) (by omega)) (by omega)
      exact ⟨c, cs ++ [Char.ofNat (48 + n % 10)],
        by rw [natToChars, if_neg h, heq]; rfl, hc⟩

theorem baseAndDigits_of_ne {c : Char} (cs : List Char) (h : c ≠ '0') :
    baseAndDigits (c :: cs) = (10, c :: cs) := by
  match cs with
  | [] => simp [baseAndDigits, h]
  | [c2] => simp [baseAndDigits, h]
  | c2 :: c3 :: rest => simp [baseAndDigits, h]

/-- `ParseUint(s, 0, bits)` on the canonical decimal digits of `n`
returns `n`, for `n` within the bit width. -/
theorem parseUintCore_natToChars {n bits : Nat} (hb : bits ≤ 64)
    (hn : n ≤ 2 ^ bits - 1) : parseUintCore (natToChars n) bits = .ok n := by
  have hmax : (2 ^ bits - 1 : Nat) ≤ 2 ^ 64 - 1 := by
    have := Nat.pow_le_pow_right (show 0 < 2 by omega) hb
    omega
  by_cases h0 : n = 0
  · subst h0
    have h1 : natToChars 0 = ['0'] := by rw [natToChars]; rfl
    rw [parseUintCore, h1]
    rfl
  · obtain ⟨c, cs, heq, hc1, hc2⟩ := natToChars_head n (by omega)
    rw [parseUintCore, heq, if_neg (by simp)]
    have hb1 : baseAndDigits (c :: cs)  = (10, c :: cs) :=
      baseAndDigits_of_ne cs (char_ne_of_toNat_ne (by simp; omega))
    rw [hb1]
    simp only []
    rw [← heq, parseUintDigits_ok hmax (natToChars n) 0
      (natToChars_digits n) (by rw [valFrom_natToChars]; exact hn)]
    rw [valFrom_natToChars]
    rfl

theorem natToChars_shape (n : Nat) :
    ∃ c cs, natToChars n = c :: cs ∧ 48 ≤ c.toNat ∧ c.toNat ≤ 57 := by
  by_cases h0 : n = 0
  · subst h0
    refine ⟨'0', [], by rw [natToChars]; rfl, by simp, by simp⟩
  · obtain ⟨c, cs, heq, h1, h2⟩ := natToChars_head n (by omega)
    exact ⟨c, cs, heq, by omega, h2⟩

theorem pow_pred_le {bits : Nat} (hb1 : 1 ≤ bits) :
    2 ^ (bits - 1) ≤ 2 ^ bits - 1 := by
  have h : bits - 1 + 1 = bits := by omega
  have h2 : 2 ^ bits = 2 ^ (bits - 1) * 2 := by
    conv_lhs => rw [← h, Nat.pow_succ]
  have hpos : 1 ≤ 2 ^ (bits - 1) := Nat.one_le_two_pow
  omega

/-- `ParseInt` on the canonical decimal form of a nonnegative value. -/
theorem parseGoInt_nonneg {n bits : Nat} (hb1 : 1 ≤ bits) (hb : bits ≤ 64)
    (hn : n < 2 ^ (bits - 1)) :
    parseGoInt (natCanon n) bits = .ok (n : Int) := by
  obtain ⟨c, cs, heq, hc1, hc2⟩ := natToChars_shape n
  have hl : (natCanon n).toList = c :: cs := by
    rw [natCanon, ← heq]; rfl
  have hne : ¬((natCanon n).toList = []) := by rw [hl]; simp
  have hdash : ¬((natCanon n).toList.head? = some '-') := by
    rw [hl]
    simp
    exact char_ne_of_toNat_ne (by simp; omega)
  have hplus : ¬((natCanon n).toList.head? = some '+') := by
    rw [hl]
    simp
    exact char_ne_of_toNat_ne (by simp; omega)
  have hcore : parseUintCore ((natCanon n).toList) bits = .ok n :=
    parseUintCore_natToChars hb (by have := pow_pred_le hb1; omega)
  rw [parseGoInt, if_neg hne, if_neg (fun h => h.elim hdash hplus)]
  simp only [hcore]
  rw [if_neg (fun h => absurd h.2 (by omega)), if_neg (fun h => hdash h.1),
    if_neg hdash]

/-- `ParseInt` on the canonical decimal form of a negative value. -/
theorem parseGoInt_neg {n bits : Nat} (hb1 : 1 ≤ bits) (hb : bits ≤ 64)
    (h1 : 1 ≤ n) (hn : n ≤ 2 ^ (bits - 1)) :
    parseGoInt (String.mk ('-' :: natToChars n)) bits = .ok (-(n : Int)) := by
  have hl : (String.mk ('-' :: natToChars n)).toList = '-' :: natToChars n := rfl
  have hcore : parseUintCore (('-' :: natToChars n).tail) bits = .ok n := by
    have h2 : 2 ^ (bits - 1) ≤ 2 ^ bits - 1 := pow_pred_le hb1
    exact parseUintCore_natToChars hb (by omega)
  rw [parseGoInt, if_neg (by rw [hl]; simp), hl]
  have hor : ('-' :: natToChars n).head? = some '-' ∨
      ('-' :: natToChars n).head? = some '+' := Or.inl rfl
  rw [if_pos hor]
  simp only [hcore]
  rw [if_neg (fun h => h.1 rfl), if_neg (fun h => absurd h.2 (by omega))]
  have hd : ('-' :: natToChars n).head? = some '-' := rfl
  rw [if_pos hd]

/-- C9's integer component: `ParseInt` round-trips the canonical decimal
form of any in-range integer. -/
theorem parseGoInt_intCanon {i : Int} {bits : Nat} (hb1 : 1 ≤ bits) (hb : bits ≤ 64)
    (hlo : -(2 ^ (bits - 1) : Int) ≤ i) (hhi : i < 2 ^ (bits - 1)) :
    parseGoInt (intCanon i) bits = .ok i := by
  by_cases hneg : i < 0
  · rw [intCanon, if_pos hneg]
    have h1 : 1 ≤ i.natAbs := by omega
    have hn : i.natAbs ≤ 2 ^ (bits - 1) := by
      have h2 : ((2 : Int) ^ (bits - 1)) = ((2 ^ (bits - 1) : Nat) : Int) := by
        push_cast; ring
      omega
    rw [parseGoInt_neg hb1 hb h1 hn]
    congr 1
    omega
  · rw [intCanon, if_neg hneg]
    have hn : i.natAbs < 2 ^ (bits - 1) := by
      have h2 : ((2 : Int) ^ (bits - 1)) = ((2 ^ (bits - 1) : Nat) : Int) := by
        push_cast; ring
      omega
    rw [parseGoInt_nonneg hb1 hb hn]
    congr 1
    omega

/-- C9's unsigned component: `ParseUint` round-trips the canonical
decimal form of any in-range natural. -/
theorem parseGoUint_natCanon {n bits : Nat} (hb : bits ≤ 64) (hn : n < 2 ^ bits) :
    parseGoUint (natCanon n) bits = .ok n := by
  have : (natCanon n).toList = natToChars n := rfl
  rw [parseGoUint, this, parseUintCore_natToChars hb (by omega)]

theorem isDigit_of_bounds {c : Char} (h1 : 48 ≤ c.toNat) (h2 : c.toNat ≤ 57) :
    c.isDigit = true := by
  unfold Char.isDigit
  simp [decide_eq_true_eq, Char.le_def]
  exact ⟨h1, h2⟩

theorem takeWhile_append_of_stop {α : Type} (p : α → Bool) :
    ∀ (ds : List α) (x : α) (rest : List α),
      (∀ c ∈ ds, p c = true) → p x = false →
      (ds ++ x :: rest).takeWhile p = ds ∧ (ds ++ x :: rest).dropWhile p = x :: rest := by
  intro ds
  induction ds with
  | nil =>
    intro x rest _ hx
    simp [List.takeWhile, List.dropWhile, hx]
  | cons c cs ih =>
    intro x rest hds hx
    have hc : p c = true := hds c (by simp)
    obtain ⟨ht, hd⟩ := ih x rest (fun a ha => hds a (by simp [ha])) hx
    constructor
    · simp [List.takeWhile, hc, ht]
    · simp [List.dropWhile, hc, hd]

theorem decDigitsVal_eq (l : List Char) : decDigitsVal l = valFrom 0 l := rfl

/-- C9's float component: `ParseFloat` on a canonical finite decimal
form `ds1.ds2` yields exactly the rational it denotes. -/
theorem parseGoFloat_decimal {s : String} {ds1 ds2 : List Char}
    (hts : s.toList = ds1 ++ '.' :: ds2)
    (h1 : ds1 ≠ []) (hd1 : ∀ c ∈ ds1, 48 ≤ c.toNat ∧ c.toNat ≤ 57)
    (hd2 : ∀ c ∈ ds2, 48 ≤ c.toNat ∧ c.toNat ≤ 57) :
    parseGoFloat s
      = .ok ((valFrom 0 (ds1 ++ ds2) : Rat) / (10 : Rat) ^ ds2.length) := by
  rcases hds : ds1 with _ | ⟨c, cs⟩
  · exact absurd hds h1
  subst hds
  have hc := hd1 c (by simp)
  have hstop := takeWhile_append_of_stop Char.isDigit (c :: cs) '.' ds2
    (fun a ha => isDigit_of_bounds (hd1 a ha).1 (hd1 a ha).2) (by decide)
  have htake : s.toList.takeWhile Char.isDigit = c :: cs := by
    rw [hts]; exact hstop.1
  have hdrop : s.toList.dropWhile Char.isDigit = '.' :: ds2 := by
    rw [hts]; exact hstop.2
  have htake2 : ds2.takeWhile Char.isDigit = ds2 :=
    List.takeWhile_eq_self_iff.mpr
      (fun a ha => isDigit_of_bounds (hd2 a ha).1 (hd2 a ha).2)
  have hdrop2 : ds2.dropWhile Char.isDigit = [] :=
    List.dropWhile_eq_nil_iff.mpr
      (fun a ha => isDigit_of_bounds (hd2 a ha).1 (hd2 a ha).2)
  have hh : s.toList.head? = some c := by rw [hts]; rfl
  have hcne1 : ¬(c = '-') := char_ne_of_toNat_ne (by simp; omega)
  have hcne2 : ¬(c = '+') := char_ne_of_toNat_ne (by simp; omega)
  simp only [parseGoFloat, hh, Option.some.injEq, hcne1, if_false, hcne2,
    htake, hdrop, List.head?_cons, List.tail_cons, htake2, hdrop2,
    decDigitsVal_eq, if_true]
  rw [one_mul, if_neg (by simp)]

/-- `time.leadingInt` consumes exactly the leading digits, stopping at
the first non-digit, and computes their value (for values within
`int64`). -/
theorem durLeadingInt_digits :
    ∀ (ds : List Char) (x : Nat) (rest : List Char),
      (∀ c ∈ ds, 48 ≤ c.toNat ∧ c.toNat ≤ 57) →
      (∀ c, rest.head? = some c → c.isDigit = false) →
      valFrom x ds ≤ 2 ^ 63 - 1 →
      durLeadingInt (ds ++ rest) x = some (valFrom x ds, rest) := by
  intro ds
  induction ds with
  | nil =>
    intro x rest _ hrest _
    rcases rest with _ | ⟨c, cs⟩
    · rfl
    · rw [List.nil_append, durLeadingInt, if_neg (by simp [hrest c rfl]),
        valFrom_nil]
  | cons c cs ih =>
    intro x rest hds hrest hval
    have hc := hds c (by simp)
    have hcd : c.isDigit = true := isDigit_of_bounds hc.1 hc.2
    have hstep : valFrom x (c :: cs)
        = valFrom (x * 10 + (c.toNat - '0'.toNat)) cs := valFrom_cons _ _ _
    have hge := valFrom_ge cs (x * 10 + (c.toNat - '0'.toNat))
    have hb : x * 10 + (c.toNat - '0'.toNat) ≤ 2 ^ 63 - 1 := by
      rw [hstep] at hval; omega
    have hcut : ¬((2 ^ 63 - 1) / 10 < x) := by
      have h10 : x * 10 ≤ 2 ^ 63 - 1 := by omega
      have := (Nat.le_div_iff_mul_le (show 0 < 10 by omega)).mpr h10
      omega
    rw [List.cons_append, durLeadingInt, if_pos hcd, if_neg hcut,
      if_neg (by omega), hstep]
    exact ih _ rest (fun a ha => hds a (by simp [ha])) hrest (hstep ▸ hval)

/-- C9's duration component: `ParseDuration` on the canonical minute
form `"<n>m"` yields `n` minutes in nanoseconds, for any in-range `n`. -/
theorem parseGoDuration_minutes {n : Nat} (h1 : 1 ≤ n)
    (h2 : n ≤ (2 ^ 63 - 1) / 60000000000) :
    parseGoDuration (natCanon n ++ "m") = .ok ((n * 60000000000 : Nat) : Int) := by
  obtain ⟨c, cs, heq, hc1, hc2⟩ := natToChars_head n h1
  have hn63 : n ≤ 2 ^ 63 - 1 := le_trans h2 (Nat.div_le_self _ _)
  have hmul : n * 60000000000 ≤ 2 ^ 63 - 1 :=
    (Nat.le_div_iff_mul_le (show 0 < 60000000000 by omega)).mp h2
  have hl : (natCanon n ++ "m").toList = c :: (cs ++ ['m']) := by
    have hx : (natCanon n ++ "m").toList = natToChars n ++ ['m'] := rfl
    rw [hx, heq]
    rfl
  have hcne1 : ¬(c = '-') := char_ne_of_toNat_ne (by simp; omega)
  have hcne2 : ¬(c = '+') := char_ne_of_toNat_ne (by simp; omega)
  have hback : c :: (cs ++ ['m']) = natToChars n ++ ['m'] := by rw [heq]; rfl
  have hlead : durLeadingInt (natToChars n ++ ['m']) 0 = some (n, ['m']) := by
    have h := durLeadingInt_digits (natToChars n) 0 ['m'] (natToChars_digits n)
      (fun d hd => by
        simp at hd
        subst hd
        decide)
      (by rw [valFrom_natToChars]; exact hn63)
    rwa [valFrom_natToChars] at h
  have hcd : c.isDigit = true := isDigit_of_bounds (by omega) hc2
  simp only [parseGoDuration, hl]
  simp only [hcne1, hcne2, false_or, or_self, if_false]
  rw [if_neg (by simp), if_neg (by simp)]
  rw [List.length_cons, durLoop]
  rw [if_neg (by simp [hcd])]
  rw [hback, hlead]
  have hpre : (decide ((['m'] : List Char).length ≠ (natToChars n ++ ['m']).length))
      = true := by
    apply decide_eq_true
    rw [heq]
    simp
  have hdot : ¬((['m'] : List Char).head? = some '.') := by decide
  have hus : List.takeWhile (fun ch => decide ¬(ch = '.' ∨ ch.isDigit = true)) ['m']
      = ['m'] := by decide
  have hs3 : List.dropWhile (fun ch => decide ¬(ch = '.' ∨ ch.isDigit = true)) ['m']
      = [] := by decide
  have hlk : List.lookup ['m'] durUnits = some 60000000000 := by decide
  have hdivlt : ¬((2 ^ 63 - 1) / 60000000000 < n) := by omega
  simp only [hpre, if_neg hdot, hus, hs3, hlk]
  rw [if_neg (by simp), if_neg (by simp), if_neg hdivlt, if_neg (by simp),
    if_neg (by simp; omega)]
  rw [durLoop] <;> simp


/-- Well-formedness of a queue entry relative to the root record and the
call prefix: the entry mirrors the field found at its path, and its
accumulated prefix is the call prefix followed by the tags of the path's
proper ancestors. -/
def entryWF (root : List GoField) (pfx0 : String) (e : QEntry) : Prop :=
  ∃ f ts, fieldAt root e.path = some f ∧ f.tag = e.tag ∧
    f.canSet = e.canSet ∧ f.value = e.value ∧
    ancTags root e.path = some ts ∧ e.pfx = pfx0 ++ ts

/-- What it means for a mapping entry `(k, p)` to be a correctly-named
bound leaf: the field at `p` is settable, tagged, not a sub-struct, and
`k` is the call prefix followed by the ancestor tags followed by the
field's own tag. -/
def goodKey (root : List GoField) (pfx0 : String) (k : String) (p : List Nat) : Prop :=
  ∃ f ts, fieldAt root p = some f ∧ ancTags root p = some ts ∧
    k = pfx0 ++ ts ++ f.tag ∧ f.canSet = true ∧ f.tag ≠ "" ∧
    ∀ gs, f.value ≠ .vstruct gs

theorem fieldAt_nil (fs : List GoField) : fieldAt fs [] = none := rfl

theorem fieldAt_single (fs : List GoField) (i : Nat) : fieldAt fs [i] = fs[i]? := rfl

theorem fieldAt_cons (fs : List GoField) (i r : Nat) (rest : List Nat) :
    fieldAt fs (i :: r :: rest)
      = match fs[i]? with
        | some (.mk _ _ (.vstruct gs)) => fieldAt gs (r :: rest)
        | _ => none := rfl

theorem ancTags_single (fs : List GoField) (i : Nat) : ancTags fs [i] = some "" := rfl

theorem ancTags_cons (fs : List GoField) (i r : Nat) (rest : List Nat) :
    ancTags fs (i :: r :: rest)
      = match fs[i]? with
        | some (.mk t _ (.vstruct gs)) => (ancTags gs (r :: rest)).map fun u => t ++ u
        | _ => none := rfl

theorem fieldAt_append :
    ∀ (p : List Nat) (fs : List GoField) (t : String) (c : Bool)
      (gs : List GoField) (j : Nat),
      fieldAt fs p = some (.mk t c (.vstruct gs)) →
      fieldAt fs (p ++ [j]) = gs[j]? := by
  intro p
  induction p with
  | nil => intro fs t c gs j h; rw [fieldAt_nil] at h; exact Option.noConfusion h
  | cons i rest ih =>
    intro fs t c gs j h
    cases rest with
    | nil =>
      rw [fieldAt_single] at h
      rw [List.cons_append, List.nil_append, fieldAt_cons, h]
      exact rfl
    | cons r rest2 =>
      rw [fieldAt_cons] at h
      rcases hfs : fs[i]? with _ | ⟨t2, c2, v2⟩
      · rw [hfs] at h; simp at h
      · rw [hfs] at h
        cases v2 <;> simp at h
        case vstruct gs2 =>
          simp only [List.cons_append]
          rw [fieldAt_cons, hfs]
          exact ih gs2 t c gs j h

theorem ancTags_append :
    ∀ (p : List Nat) (fs : List GoField) (t : String) (c : Bool)
      (gs : List GoField) (ts : String) (j : Nat),
      fieldAt fs p = some (.mk t c (.vstruct gs)) →
      ancTags fs p = some ts →
      ancTags fs (p ++ [j]) = some (ts ++ t) := by
  intro p
  induction p with
  | nil => intro fs t c gs ts j h _; rw [fieldAt_nil] at h; exact Option.noConfusion h
  | cons i rest ih =>
    intro fs t c gs ts j h ha
    cases rest with
    | nil =>
      rw [fieldAt_single] at h
      rw [ancTags_single] at ha
      simp at ha
      subst ha
      rw [List.cons_append, List.nil_append, ancTags_cons, h]
      show Option.map (fun u => t ++ u) (ancTags gs [j]) = some ("" ++ t)
      rw [ancTags_single]
      simp
    | cons r rest2 =>
      rw [fieldAt_cons] at h
      rw [ancTags_cons] at ha
      rcases hfs : fs[i]? with _ | ⟨t2, c2, v2⟩
      · rw [hfs] at h; simp at h
      · rw [hfs] at h
        cases v2 <;> simp at h
        case vstruct gs2 =>
          rw [hfs] at ha
          simp at ha
          obtain ⟨ts2, hts2, hts⟩ := ha
          have hih := ih gs2 t c gs ts2 j h hts2
          rw [List.cons_append] at hih
          simp only [List.cons_append]
          rw [ancTags_cons, hfs]
          show Option.map (fun u => t2 ++ u) (ancTags gs2 (r :: (rest2 ++ [j])))
            = some (ts ++ t)
          rw [hih]
          simp
          rw [← hts]
          exact (String.append_assoc t2 ts2 t).symm

theorem mem_mkEntries {e : QEntry} (path : List Nat) (pfx : String) :
    ∀ (fs : List GoField) (i : Nat), e ∈ mkEntries path pfx i fs →
      ∃ j f, fs[j]? = some f ∧ e.path = path ++ [i + j] ∧ e.tag = f.tag ∧
        e.canSet = f.canSet ∧ e.value = f.value ∧ e.pfx = pfx := by
  intro fs
  induction fs with
  | nil => intro i h; simp [mkEntries] at h
  | cons f fs ih =>
    intro i h
    cases f with
    | mk t c v =>
      rw [mkEntries] at h
      rcases List.mem_cons.mp h with he | he
      · exact ⟨0, .mk t c v, by simp, by simp [he], by simp [he, GoField.tag],
          by simp [he, GoField.canSet], by simp [he, GoField.value], by simp [he]⟩
      · obtain ⟨j, g, hg, hp, ht, hc, hv, hx⟩ := ih (i + 1) he
        refine ⟨j + 1, g, by simpa using hg, ?_, ht, hc, hv, hx⟩
        rw [hp]
        congr 2
        omega

theorem mem_mapInsert {m : List (String × List Nat)} {k0 : String}
    {p0 : List Nat} {kp : String × List Nat} (h : kp ∈ mapInsert m k0 p0) :
    kp ∈ m ∨ kp = (k0, p0) := by
  rw [mapInsert] at h
  by_cases hc : m.any fun q => q.1 = k0
  · rw [if_pos hc] at h
    obtain ⟨q, hq, he⟩ := List.mem_map.mp h
    by_cases hqk : q.1 = k0
    · rw [if_pos hqk] at he; right; exact he.symm
    · rw [if_neg hqk] at he; left; exact he ▸ hq
  · rw [if_neg hc] at h
    rcases List.mem_append.mp h with hm | hm
    · left; exact hm
    · right; simpa using hm

theorem walkLoop_sound (root : List GoField) (pfx0 : String) :
    ∀ (qs : List QEntry) (infos : List (String × List Nat)),
      (∀ e ∈ qs, entryWF root pfx0 e) →
      (∀ kp ∈ infos, goodKey root pfx0 kp.1 kp.2) →
      ∀ kp ∈ walkLoop qs infos, goodKey root pfx0 kp.1 kp.2 := by
  intro qs infos
  induction qs, infos using walkLoop.induct with
  | case1 infos =>
    intro _ hinfos kp hkp
    rw [walkLoop] at hkp
    exact hinfos kp hkp
  | case2 q rest infos hskip ih =>
    intro hq hinfos kp hkp
    rw [walkLoop, if_pos hskip] at hkp
    exact ih (fun e he => hq e (List.mem_cons_of_mem q he)) hinfos kp hkp
  | case3 q rest infos hset fs hv ih =>
    intro hq hinfos kp hkp
    obtain ⟨f, ts, hfa, hft, hfc, hfv, hanc, hpfx⟩ := hq q (by simp)
    rcases f with ⟨ft2, fc2, fv2⟩
    simp [GoField.tag, GoField.canSet, GoField.value] at hft hfc hfv
    subst hft hfc
    rw [hv] at hfv
    subst hfv
    have hred : walkLoop (q :: rest) infos
        = walkLoop (rest ++ mkEntries q.path (q.pfx ++ q.tag) 0 fs) infos := by
      obtain ⟨path, tag, canSet, value, pfx⟩ := q
      simp only at hv hset ⊢
      subst hv
      rw [walkLoop]
      simp only [if_neg hset]
    rw [hred] at hkp
    refine ih ?_ hinfos kp hkp
    intro e he
    rcases List.mem_append.mp he with hr | hm
    · exact hq e (List.mem_cons_of_mem q hr)
    · obtain ⟨j, g, hg, hp, ht, hc, hvv, hx⟩ := mem_mkEntries q.path (q.pfx ++ q.tag) fs 0 hm
      refine ⟨g, ts ++ q.tag, ?_, ht.symm, hc.symm, hvv.symm, ?_, ?_⟩
      · rw [hp]
        simp only [Nat.zero_add]
        rw [fieldAt_append q.path root q.tag q.canSet fs j hfa]
        exact hg
      · rw [hp]
        simp only [Nat.zero_add]
        exact ancTags_append q.path root q.tag q.canSet fs ts j hfa hanc
      · rw [hx, hpfx]
        exact String.append_assoc pfx0 ts q.tag
  | case4 q rest infos hset htag hns ih =>
    intro hq hinfos kp hkp
    have hred : walkLoop (q :: rest) infos = walkLoop rest infos := by
      obtain ⟨path, tag, canSet, value, pfx⟩ := q
      simp only at hns htag hset
      rw [walkLoop]
      simp only [if_neg hset]
      cases value <;> first
        | (exact absurd rfl (hns _))
        | simp [htag]
    rw [hred] at hkp
    exact ih (fun e he => hq e (List.mem_cons_of_mem q he)) hinfos kp hkp
  | case5 q rest infos hset htag hns ih =>
    intro hq hinfos kp hkp
    have hcs : q.canSet = true := by
      by_contra hc
      exact hset (by simpa using hc)
    have hred : walkLoop (q :: rest) infos
        = walkLoop rest (mapInsert infos (q.pfx ++ q.tag) q.path) := by
      obtain ⟨path, tag, canSet, value, pfx⟩ := q
      simp only at hns htag hset
      rw [walkLoop]
      simp only [if_neg hset]
      cases value <;> first
        | (exact absurd rfl (hns _))
        | simp [htag]
    rw [hred] at hkp
    refine ih (fun e he => hq e (List.mem_cons_of_mem q he)) ?_ kp hkp
    intro kp2 hkp2
    rcases mem_mapInsert hkp2 with hold | hnew
    · exact hinfos kp2 hold
    · obtain ⟨f, ts, hfa, hft, hfc, hfv, hanc, hpfx⟩ := hq q (by simp)
      subst hnew
      refine ⟨f, ts, hfa, hanc, ?_, by rw [hfc, hcs], by rw [hft]; exact htag, ?_⟩
      · rw [hpfx, hft]
      · intro gs hgs
        exact hns gs (by rw [← hfv, hgs])

/-! ### Claim theorems -/

/-- C2: `Process` fails with an `InvalidSpec` error when given a null
record (a nil interface, or a nil typed pointer), a non-pointer value, or
a pointer to a non-struct; the non-pointer case and the
pointer-to-non-struct case carry distinct messages (`"spec must be
non-nil pointer"` vs `"spec must be a struct type"`).  The result does not
depend on the store (no fetch occurs) and the record is returned
unchanged (no traversal mutates it). -/
theorem process_invalid_spec_errors {ε : Type}
    (store : List String → Bool → Except ε (List (String × String))) (pfx : String) :
    Process store pfx .nilInterface
        = (some (.invalidSpec "spec must be non-nil pointer"), .nilInterface)
    ∧ (∀ v : GoValue, Process store pfx (.nonPtr v)
        = (some (.invalidSpec "spec must be non-nil pointer"), .nonPtr v))
    ∧ Process store pfx .nilPtr
        = (some (.invalidSpec "spec must be a struct type"), .nilPtr)
    ∧ (∀ v : GoValue, (∀ fs, v ≠ .vstruct fs) →
        Process store pfx (.ptrTo v)
          = (some (.invalidSpec "spec must be a struct type"), .ptrTo v))
    ∧ "spec must be non-nil pointer" ≠ "spec must be a struct type" := by
  refine ⟨rfl, fun v => rfl, rfl, ?_, by decide⟩
  intro v h
  cases v <;> first | rfl | exact absurd rfl (h _)

/-- Witness for C2 at concrete inputs: a pointer to a non-struct value
fails with the struct-type message. -/
theorem process_invalid_spec_errors_witness :
    Process (fun _ _ => (.ok [] : Except Unit (List (String × String)))) ""
        (.ptrTo (.vint 64 1))
      = (some (.invalidSpec "spec must be a struct type"), .ptrTo (.vint 64 1)) :=
  (process_invalid_spec_errors (fun _ _ => .ok []) "").2.2.2.1 (.vint 64 1)
    (fun fs h => by cases h)

/-- C4: if the batched `GetParameters` call fails, `Process` returns
exactly the store's error value (propagated intact inside `storeErr`) and
the record is unchanged: the decode phase never runs and traversal does
not mutate. -/
theorem process_store_error_propagation {ε : Type} (fields : List GoField)
    (pfx : String) (e : ε)
    (store : List String → Bool → Except ε (List (String × String)))
    (h : store ((walk fields pfx).map fun q => q.1) true = .error e) :
    Process store pfx (.ptrTo (.vstruct fields))
      = (some (.storeErr e), .ptrTo (.vstruct fields)) := by
  simp only [Process, buildRequest]
  rw [h]

/-- Witness for C4: a store that always fails with `7`. -/
theorem process_store_error_propagation_witness :
    Process (fun _ _ => (.error 7 : Except Nat (List (String × String)))) ""
        (.ptrTo (.vstruct []))
      = (some (.storeErr 7), .ptrTo (.vstruct [])) :=
  process_store_error_propagation [] "" 7 _ rfl

/-- C7: a slice-typed field with non-byte element type given an empty or
whitespace-only raw string decodes successfully to an empty non-nil slice
(`some []`, the `reflect.MakeSlice(typ, 0, 0)` value), never to the nil
slice `none`. -/
theorem empty_slice_decode (elem : GoType) (s : String) (old : GoValue)
    (hne : elem ≠ .tuint 8) (hs : (goTrimSpace s).length = 0) :
    processField s (.tslice elem) old = .ok (.vslice elem (some [])) := by
  rw [processField]
  simp [hne, hs]

/-- Witness for C7: a float-slice field with a whitespace-only raw string
and a nil old slice. -/
theorem empty_slice_decode_witness :
    processField " " (.tslice (.tfloat 64)) (.vslice (.tfloat 64) none)
      = .ok (.vslice (.tfloat 64) (some [])) :=
  empty_slice_decode (.tfloat 64) " " (.vslice (.tfloat 64) none)
    (by decide) (by decide)

/-- C3 counterexample: a fixed-length array destination is NOT decoded.
`processField`'s kind switch has no `reflect.Array` case, so decoding
`"1,2"` into a two-element `int64` array leaves the array at its old
value `[5, 6]` (and returns no error) instead of assigning the decoded
elements `[1, 2]` as the claim requires. -/
theorem array_destination_not_decoded :
    processField "1,2" (.tarray 2 (.tint 64))
        (.varray (.tint 64) [.vint 64 5, .vint 64 6])
      = .ok (.varray (.tint 64) [.vint 64 5, .vint 64 6])
    ∧ GoValue.varray (.tint 64) [.vint 64 5, .vint 64 6]
        ≠ GoValue.varray (.tint 64) [.vint 64 1, .vint 64 2] := by
  constructor
  · exact processField_array "1,2" 2 (.tint 64) _
  · intro h
    simp at h

/-- C3 (amended): for slice destinations, a byte element type makes the
raw string a verbatim byte sequence (no delimiter splitting), and any
other element type splits the raw string on `','` and recursively decodes
each segment as the element type, assigning the results in order; array
destinations, by contrast, are silently ignored (no assignment, no
error), falling into the switch's default case. -/
theorem slice_decode_characterization :
    (∀ (s : String) (old : GoValue),
      processField s (.tslice (.tuint 8)) old
        = .ok (.vslice (.tuint 8) (some ((utf8Bytes s).map (.vuint 8 ·)))))
    ∧ (∀ (elem : GoType) (s : String) (old : GoValue) (vs : List GoValue),
        elem ≠ .tuint 8 → (goTrimSpace s).length ≠ 0 →
        List.Forall₂ (fun seg v => processField seg elem (goZero elem) = .ok v)
          (goSplit s ',') vs →
        processField s (.tslice elem) old = .ok (.vslice elem (some vs)))
    ∧ (∀ (s : String) (n : Nat) (t : GoType) (old : GoValue),
        processField s (.tarray n t) old = .ok old) := by
  refine ⟨processField_slice_bytes, ?_, processField_array⟩
  intro elem s old vs hne hs h
  rw [processField_slice_decode hne s old hs, decodeList_of_forall₂ h]

/-- Witness for C3 (amended): `"1,2"` into an `int64` slice decodes to
`[1, 2]`. -/
theorem slice_decode_characterization_witness :
    processField "1,2" (.tslice (.tint 64)) (.vslice (.tint 64) none)
      = .ok (.vslice (.tint 64) (some [.vint 64 1, .vint 64 2])) := by
  refine slice_decode_characterization.2.1 (.tint 64) "1,2" _ _
    (by decide) (by decide) ?_
  have hsplit : goSplit "1,2" ',' = ["1", "2"] := by decide
  rw [hsplit]
  refine .cons ?_ (.cons ?_ .nil)
  · simp [processField, goZero, parseGoInt, parseUintCore, baseAndDigits,
      parseUintDigits, digitVal, goLower]
  · simp [processField, goZero, parseGoInt, parseUintCore, baseAndDigits,
      parseUintDigits, digitVal, goLower]

theorem decodeMapPairs_append_error {kt vt : GoType} {e : String}
    {tail : List String}
    (htail : ∀ acc, decodeMapPairs tail kt vt acc = .error e) :
    ∀ {pre : List String}, (∀ q ∈ pre, ∃ kv, pairDecodes kt vt q kv) →
    ∀ acc, decodeMapPairs (pre ++ tail) kt vt acc = .error e := by
  intro pre
  induction pre with
  | nil => intro _ acc; rw [List.nil_append]; exact htail acc
  | cons q pre ih =>
    intro hpre acc
    obtain ⟨kv, ks, vs, hsplit, hk, hv⟩ := hpre q (by simp)
    rw [List.cons_append, decodeMapPairs, hsplit]
    simp only [hk, hv]
    exact ih (fun r hr => hpre r (by simp [hr])) _

/-- C6: a map-typed field splits the raw string on `','` into pairs and
each pair on `':'`; a pair that does not split into exactly two parts
fails with the `invalid map item` decode error (at whatever position it
occurs, provided the earlier pairs decode), and otherwise the mapping is
built left-to-right from the recursively decoded keys and values;
concretely, `"a:1,b:2"` decodes to the two-entry mapping
`{a ↦ 1, b ↦ 2}` and `"a-1"` fails. -/
theorem map_decode_characterization :
    (∀ (kt vt : GoType) (s : String) (old : GoValue)
        (kvs : List (GoValue × GoValue)),
      (goTrimSpace s).length ≠ 0 →
      List.Forall₂ (pairDecodes kt vt) (goSplit s ',') kvs →
      processField s (.tmap kt vt) old
        = .ok (.vmap kt vt (kvs.foldl (fun a kv => mapSet a kv.1 kv.2) [])))
    ∧ (∀ (kt vt : GoType) (s : String) (old : GoValue)
        (pre : List String) (p : String) (post : List String),
      (goTrimSpace s).length ≠ 0 →
      goSplit s ',' = pre ++ p :: post →
      (∀ q ∈ pre, ∃ kv, pairDecodes kt vt q kv) →
      (goSplit p ':').length ≠ 2 →
      processField s (.tmap kt vt) old
        = .error ("invalid map item: " ++ goQuote p))
    ∧ processField "a:1,b:2" (.tmap .tstring (.tint 64)) (.vmap .tstring (.tint 64) [])
        = .ok (.vmap .tstring (.tint 64)
            [(.vstring "a", .vint 64 1), (.vstring "b", .vint 64 2)])
    ∧ processField "a-1" (.tmap .tstring (.tint 64)) (.vmap .tstring (.tint 64) [])
        = .error ("invalid map item: " ++ goQuote "a-1") := by
  refine ⟨?_, ?_, ?_, ?_⟩
  · intro kt vt s old kvs hs h
    rw [processField_map_decode kt vt s old hs, decodeMapPairs_of_forall₂ h]
  · intro kt vt s old pre p post hs hsplit hpre hp
    rw [processField_map_decode kt vt s old hs, hsplit,
      decodeMapPairs_append_error (fun acc => decodeMapPairs_malformed hp) hpre]
  · rw [processField_map_decode _ _ _ _ (by decide)]
    have h1 : goSplit "a:1,b:2" ',' = ["a:1", "b:2"] := by decide
    rw [h1]
    have hf : List.Forall₂ (pairDecodes .tstring (.tint 64)) ["a:1", "b:2"]
        [(.vstring "a", .vint 64 1), (.vstring "b", .vint 64 2)] := by
      refine .cons ⟨"a", "1", by decide, ?_, ?_⟩ (.cons ⟨"b", "2", by decide, ?_, ?_⟩ .nil) <;>
        simp [processField, goZero, parseGoInt, parseUintCore, baseAndDigits,
          parseUintDigits, digitVal, goLower]
    rw [decodeMapPairs_of_forall₂ hf]
    simp [mapSet, goValueBeq]
  · rw [processField_map_decode _ _ _ _ (by decide)]
    have h1 : goSplit "a-1" ',' = ["a-1"] := by decide
    rw [h1, decodeMapPairs_malformed (by decide)]

/-- Witness for C6: the universally quantified success part applied to a
one-pair string-to-string map. -/
theorem map_decode_characterization_witness :
    processField "x:y" (.tmap .tstring .tstring) (.vmap .tstring .tstring [])
      = .ok (.vmap .tstring .tstring [(.vstring "x", .vstring "y")]) := by
  have h := map_decode_characterization.1 .tstring .tstring "x:y"
    (.vmap .tstring .tstring []) [(.vstring "x", .vstring "y")]
    (by decide)
    (by
      have h1 : goSplit "x:y" ',' = ["x:y"] := by decide
      rw [h1]
      exact .cons ⟨"x", "y", by decide, by rw [processField], by rw [processField]⟩ .nil)
  rw [h]
  rfl

/-- C5: a signed-integer field is decoded with `strconv.ParseInt(value,
0, bits)` — base-flexible parsing sized to the field's bit width,
accepting `0x`/`0o`-style prefixes — except that the `time.Duration`
type (kind `Int64`, package `time`, name `Duration`) is parsed with
`time.ParseDuration` instead; a parse failure in either branch is
returned as the decode error. -/
theorem int_and_duration_decode :
    (∀ (bits : Nat) (old : GoValue) (s : String) (n : Int),
        parseGoInt s bits = .ok n →
        processField s (.tint bits) old = .ok (.vint bits n))
    ∧ (∀ (bits : Nat) (old : GoValue) (s : String) (e : String),
        parseGoInt s bits = .error e →
        processField s (.tint bits) old = .error e)
    ∧ (∀ (old : GoValue) (s : String) (d : Int),
        parseGoDuration s = .ok d →
        processField s .tduration old = .ok (.vduration d))
    ∧ (∀ (old : GoValue) (s : String) (e : String),
        parseGoDuration s = .error e →
        processField s .tduration old = .error e)
    ∧ parseGoInt "0x1A" 64 = .ok 26
    ∧ parseGoInt "0o17" 64 = .ok 15
    ∧ parseGoDuration "5m" = .ok 300000000000
    ∧ parseGoDuration "1h30m" = .ok 5400000000000 := by
  refine ⟨?_, ?_, ?_, ?_, by rfl, by rfl, by rfl, by rfl⟩
  · intro bits old s n h; rw [processField, h]
  · intro bits old s e h; rw [processField, h]
  · intro old s d h; rw [processField, h]
  · intro old s e h; rw [processField, h]

/-- Witness for C5: `"-314"` into an `int64` field, and an invalid
string into a `time.Duration` field. -/
theorem int_and_duration_decode_witness :
    processField "-314" (.tint 64) (.vint 64 0) = .ok (.vint 64 (-314))
    ∧ processField "x" .tduration (.vduration 0)
        = .error ("time: invalid duration " ++ goQuote "x") :=
  ⟨int_and_duration_decode.1 64 (.vint 64 0) "-314" (-314) (by rfl),
   int_and_duration_decode.2.2.2.1 (.vduration 0) "x" _ (by rfl)⟩

/-- C10: container decoding is atomic per field.  If the recursive
decode of any slice element (with all earlier elements succeeding), or of
any map key or value, fails, the whole `processField` call returns that
error — the freshly built container is assigned only after every element
has decoded, so an error means no assignment; in the decode loop of
`Process` the failing field's record is returned exactly as it was before
the call. -/
theorem container_decode_atomic :
    (∀ (elem : GoType) (pre : List String) (s : String) (post : List String)
        (e : String),
      (∀ q ∈ pre, ∃ v, processField q elem (goZero elem) = .ok v) →
      processField s elem (goZero elem) = .error e →
      decodeList (pre ++ s :: post) elem = .error e)
    ∧ (∀ (elem : GoType) (s : String) (old : GoValue) (e : String),
        elem ≠ .tuint 8 → (goTrimSpace s).length ≠ 0 →
        decodeList (goSplit s ',') elem = .error e →
        processField s (.tslice elem) old = .error e)
    ∧ (∀ (kt vt : GoType) (acc : List (GoValue × GoValue)) (p ks vs : String)
        (rest : List String) (e : String),
        goSplit p ':' = [ks, vs] →
        (processField ks kt (goZero kt) = .error e ∨
          (∃ k, processField ks kt (goZero kt) = .ok k ∧
            processField vs vt (goZero vt) = .error e)) →
        decodeMapPairs (p :: rest) kt vt acc = .error e)
    ∧ (∀ (kt vt : GoType) (s : String) (old : GoValue) (e : String),
        (goTrimSpace s).length ≠ 0 →
        decodeMapPairs (goSplit s ',') kt vt [] = .error e →
        processField s (.tmap kt vt) old = .error e)
    ∧ (∀ (infos : List (String × List Nat)) (n v : String)
        (rest : List (String × String)) (path : List Nat)
        (r : List GoField) (e : String),
        ((infos.find? fun q => q.1 = n).map fun q => q.2) = some path →
        processField v (getAtPath r path).typeOf (getAtPath r path) = .error e →
        applyParams infos ((n, v) :: rest) r = (some e, r)) := by
  refine ⟨?_, ?_, ?_, ?_, ?_⟩
  · intro elem pre s post e hpre hs
    exact decodeList_error hpre hs
  · intro elem s old e hne hs h
    rw [processField_slice_decode hne s old hs, h]
  · intro kt vt acc p ks vs rest e hsplit h
    rcases h with hk | ⟨k, hk, hv⟩
    · exact decodeMapPairs_key_error hsplit hk
    · exact decodeMapPairs_value_error hsplit hk hv
  · intro kt vt s old e hs h
    rw [processField_map_decode kt vt s old hs, h]
  · intro infos n v rest path r e hfind h
    rw [applyParams, hfind]
    simp only [h]

/-- Witness for C10: decoding `"1,x"` into an `int64` slice fails with
the second element's parse error and assigns nothing. -/
theorem container_decode_atomic_witness :
    processField "1,x" (.tslice (.tint 64)) (.vslice (.tint 64) none)
      = .error ("strconv.ParseInt: parsing " ++ goQuote "x" ++ ": invalid syntax") :=
  container_decode_atomic.2.1 (.tint 64) "1,x" (.vslice (.tint 64) none) _
    (by decide) (by decide)
    (by
      have h1 : goSplit "1,x" ',' = ["1", "x"] := by decide
      rw [h1]
      exact container_decode_atomic.1 (.tint 64) ["1"] "x" [] _
        (by
          intro q hq
          simp at hq
          subst hq
          exact ⟨.vint 64 1, by simp [processField, goZero, parseGoInt,
            parseUintCore, baseAndDigits, parseUintDigits, digitVal, goLower]⟩)
        (by simp [processField, goZero, parseGoInt, parseUintCore,
          baseAndDigits, parseUintDigits, digitVal, goLower, numErrMsg]))

/-- C8: for a structured record in which no field is bound to a remote
parameter (every settable field is either an unbound-everywhere
sub-struct or carries no tag), the single batched fetch is issued with an
empty name list and decryption requested, and whatever the store answers,
every field of the record keeps its original value. -/
theorem no_bound_fields_empty_request (fields : List GoField) (pfx : String)
    (h : noBoundFields fields = true) :
    buildRequest (walk fields pfx) = ([], true)
    ∧ ∀ (ε : Type) (store : List String → Bool → Except ε (List (String × String))),
        (Process store pfx (.ptrTo (.vstruct fields))).2 = .ptrTo (.vstruct fields) := by
  have hw := walk_noBound pfx h
  constructor
  · rw [hw]; rfl
  · intro ε store
    simp only [Process, buildRequest, hw, List.map_nil]
    rcases store [] true with e | params
    · rfl
    · simp [applyParams_nil_infos]

/-- Witness for C8: the untagged one-field record of the test suite
(`NoTagConfig`), against a store returning an unrequested parameter. -/
theorem no_bound_fields_empty_request_witness :
    buildRequest (walk [.mk "" true (.vstring "nooverride")] "") = ([], true)
    ∧ (Process (fun _ _ => (.ok [("/test/key", "testkey")]
          : Except Unit (List (String × String)))) ""
        (.ptrTo (.vstruct [.mk "" true (.vstring "nooverride")]))).2
      = .ptrTo (.vstruct [.mk "" true (.vstring "nooverride")]) :=
  ⟨(no_bound_fields_empty_request [.mk "" true (.vstring "nooverride")] ""
      (by simp [noBoundFields])).1,
   (no_bound_fields_empty_request [.mk "" true (.vstring "nooverride")] ""
      (by simp [noBoundFields])).2 Unit _⟩

/-- C9: for every supported scalar type, decoding the stringified
canonical form of a value produces a value equal to the original:
strings round-trip verbatim; in-range signed integers round-trip through
their canonical decimal form (`"-314"` ↦ `-314`); in-range unsigned
integers likewise; booleans through `"true"`/`"false"`; floats through
their canonical finite decimal form (`"3.14159"` ↦ `3.14159`, exactly in
the model's rational semantics); and durations through the canonical
minute form (`"5m"` ↦ 5 minutes). -/
theorem scalar_roundtrip :
    (∀ (s : String) (old : GoValue),
      processField s .tstring old = .ok (.vstring s))
    ∧ (∀ (bits : Nat) (old : GoValue) (i : Int),
        1 ≤ bits → bits ≤ 64 →
        -(2 ^ (bits - 1) : Int) ≤ i → i < 2 ^ (bits - 1) →
        processField (intCanon i) (.tint bits) old = .ok (.vint bits i))
    ∧ (∀ (bits : Nat) (old : GoValue) (n : Nat),
        bits ≤ 64 → n < 2 ^ bits →
        processField (natCanon n) (.tuint bits) old = .ok (.vuint bits n))
    ∧ (∀ (old : GoValue) (b : Bool),
        processField (if b then "true" else "false") .tbool old = .ok (.vbool b))
    ∧ (∀ (bits : Nat) (old : GoValue) (s : String) (ds1 ds2 : List Char),
        s.toList = ds1 ++ '.' :: ds2 → ds1 ≠ [] →
        (∀ c ∈ ds1, 48 ≤ c.toNat ∧ c.toNat ≤ 57) →
        (∀ c ∈ ds2, 48 ≤ c.toNat ∧ c.toNat ≤ 57) →
        processField s (.tfloat bits) old
          = .ok (.vfloat bits ((valFrom 0 (ds1 ++ ds2) : Rat) / (10 : Rat) ^ ds2.length)))
    ∧ (∀ (old : GoValue) (n : Nat),
        1 ≤ n → n ≤ (2 ^ 63 - 1) / 60000000000 →
        processField (natCanon n ++ "m") .tduration old
          = .ok (.vduration ((n * 60000000000 : Nat) : Int)))
    ∧ processField "-314" (.tint 64) (.vint 64 0) = .ok (.vint 64 (-314))
    ∧ processField "3.14159" (.tfloat 64) (.vfloat 64 0)
        = .ok (.vfloat 64 (314159 / 100000 : Rat))
    ∧ processField "5m" .tduration (.vduration 0) = .ok (.vduration 300000000000) := by
  refine ⟨?_, ?_, ?_, ?_, ?_, ?_, ?_, ?_, ?_⟩
  · intro s old; rw [processField]
  · intro bits old i hb1 hb hlo hhi
    rw [processField, parseGoInt_intCanon hb1 hb hlo hhi]
  · intro bits old n hb hn
    rw [processField, parseGoUint_natCanon hb hn]
  · intro old b
    cases b <;> rw [processField] <;> rfl
  · intro bits old s ds1 ds2 hts h1 hd1 hd2
    rw [processField, parseGoFloat_decimal hts h1 hd1 hd2]
  · intro old n h1 h2
    rw [processField, parseGoDuration_minutes h1 h2]
  · rw [processField]; rfl
  · rw [processField]
    have hts : ("3.14159" : String).toList = "3".toList ++ '.' :: "14159".toList := by
      decide
    have h := parseGoFloat_decimal hts (by decide) (by decide) (by decide)
    have hv : valFrom 0 ("3".toList ++ "14159".toList) = 314159 := by decide
    rw [h, hv]
    norm_num
  · rw [processField]; rfl

/-- Witness for C9: the canonical-form round trips applied at the
specification's example values. -/
theorem scalar_roundtrip_witness :
    processField (intCanon (-314)) (.tint 64) (.vint 64 0) = .ok (.vint 64 (-314))
    ∧ processField (natCanon 314) (.tuint 64) (.vuint 64 0) = .ok (.vuint 64 314)
    ∧ processField (natCanon 5 ++ "m") .tduration (.vduration 0)
        = .ok (.vduration 300000000000)
    ∧ processField "3.14159" (.tfloat 64) (.vfloat 64 0)
        = .ok (.vfloat 64 ((valFrom 0 ("3".toList ++ "14159".toList) : Rat)
            / (10 : Rat) ^ ("14159".toList.length))) := by
  refine ⟨scalar_roundtrip.2.1 64 _ (-314) (by omega) (by omega) (by decide) (by decide),
    scalar_roundtrip.2.2.1 64 _ 314 (by omega) (by decide),
    ?_, ?_⟩
  · have h := scalar_roundtrip.2.2.2.2.2.1 (.vduration 0) 5 (by omega) (by decide)
    rw [h]
    norm_num
  · exact scalar_roundtrip.2.2.2.2.1 64 _ "3.14159" ("3".toList)
      ("14159".toList) (by decide) (by decide) (by decide) (by decide)

/-- C1: every entry of the name-to-field mapping built by the walk is a
settable, tagged, non-struct leaf whose fully-qualified name is the
call-prefix concatenated with the tags of all its ancestor sub-record
fields (each contributing its tag, the empty string when untagged)
concatenated with the leaf's own tag; in particular, the `SmallConfig`
record (a sub-record tagged `"/prefixnested"` containing a field tagged
`"/nested/key"`), walked under call-prefix `"/test"`, maps exactly the
key `"/test/prefixnested/nested/key"`. -/
theorem walk_key_decomposition :
    (∀ (fields : List GoField) (pfx : String) (k : String) (p : List Nat),
      (k, p) ∈ walk fields pfx →
      ∃ f ts, fieldAt fields p = some f ∧ ancTags fields p = some ts ∧
        k = pfx ++ ts ++ f.tag ∧ f.canSet = true ∧ f.tag ≠ "" ∧
        ∀ gs, f.value ≠ .vstruct gs)
    ∧ walk smallConfig "/test" = [("/test/prefixnested/nested/key", [0, 0])] := by
  constructor
  · intro fields pfx k p hmem
    refine walkLoop_sound fields pfx (mkEntries [] pfx 0 fields) []
      ?_ (by simp) (k, p) hmem
    intro e he
    obtain ⟨j, f, hg, hp, ht, hc, hv, hx⟩ := mem_mkEntries [] pfx fields 0 he
    refine ⟨f, "", ?_, ht.symm, hc.symm, hv.symm, ?_, ?_⟩
    · rw [hp]
      simp only [Nat.zero_add, List.nil_append]
      rw [fieldAt_single]
      exact hg
    · rw [hp]
      simp only [Nat.zero_add, List.nil_append]
      exact ancTags_single fields j
    · rw [hx]
      exact (String.append_empty pfx).symm
  · simp [walk, mkEntries, walkLoop, mapInsert, smallConfig]

/-- Witness for C1: the mapping entry of the nesting scenario decomposes
into the call prefix, the ancestor tag `"/prefixnested"`, and the leaf
tag `"/nested/key"`. -/
theorem walk_key_decomposition_witness :
    ∃ f ts, fieldAt smallConfig [0, 0] = some f ∧
      ancTags smallConfig [0, 0] = some ts ∧
      "/test/prefixnested/nested/key" = "/test" ++ ts ++ f.tag ∧
      f.canSet = true ∧ f.tag ≠ "" ∧ ∀ gs, f.value ≠ .vstruct gs :=
  walk_key_decomposition.1 smallConfig "/test" "/test/prefixnested/nested/key"
    [0, 0] (by rw [walk_key_decomposition.2]; simp)
